import Mathlib

set_option maxHeartbeats 1000000

/-!
# A shallow embedding of the backforth interpreter

This file models the Rust sources of the backforth concatenative language
interpreter — `src/lib.rs` (stack machine, builtins, stack-effect
inference), `src/parser.rs` (tokenizer and block parser) and
`src/display.rs` (pretty printer) — and proves properties about them.

Conventions of the embedding:
* `VecDeque<Word>` used as the data stack (push/pop at the front) becomes a
  `List Word` whose head is the stack top.
* `Vec<Word>` used as the code stack (push/pop at the back) becomes a
  `List Word` whose head is the top of the stack, i.e. the Rust vector
  reversed; `Vec::extend ws` therefore becomes `ws.reverse ++ code`.
* `OrderMap` becomes an insertion-ordered association list.
* `i32` becomes `Int` (range maintained by parsing/wrapping), `u32`
  becomes `Nat` (kept below `2 ^ 32`), `usize` becomes `Nat`.
* Loops without an a-priori structural bound take an explicit fuel
  argument so that all definitions compute by kernel reduction.
-/

namespace Backforth

/-- Left brace written via its code point, as it recurs in char literals. -/
def lbrace : Char := Char.ofNat 123

/-- Right brace written via its code point. -/
def rbrace : Char := Char.ofNat 125

/-- `enum Word` (lib.rs): the universal value/AST type. -/
inductive Word where
| Atom : String → Word
| Int : Int → Word
| Hex : Nat → Word
| Str : String → Word
| List : List Word → Word
| Dict : List (String × Word) → Word
deriving Inhabited

/-- `enum TypeName` (lib.rs). -/
inductive TypeName where
| Atom | Int | Hex | Str | List
deriving Inhabited, DecidableEq

/-- `enum ParseErr` (parser.rs). -/
inductive ParseErr where
| MissingOpenBrace | MissingCloseBrace | MissingEndQuote | BadHexLiteral
deriving Inhabited, DecidableEq

/-- `enum EvalErr` (lib.rs). -/
inductive EvalErr where
| StackUnderflow : EvalErr
| CantUnderstand : String → EvalErr
| DivideByZero : EvalErr
| CantCoerce : Word → TypeName → EvalErr
| WrongType : Word → TypeName → EvalErr
| BadParse : ParseErr → EvalErr
| EmptyList : EvalErr
| MacroFailed : EvalErr
| IllegalStackEffect : Nat → Nat → EvalErr
deriving Inhabited

/-! ## Decimal and hexadecimal digit strings -/

/-- Digit characters `0`–`9`, `a`–`f` (Rust's `{}` / `{:x}` formatters). -/
def digitChar : Nat → Char
| 0 => '0' | 1 => '1' | 2 => '2' | 3 => '3' | 4 => '4'
| 5 => '5' | 6 => '6' | 7 => '7' | 8 => '8' | 9 => '9'
| 10 => 'a' | 11 => 'b' | 12 => 'c' | 13 => 'd' | 14 => 'e' | 15 => 'f'
| _ => '?'

/-- Most-significant-first digit string of `n` in `base`; any fuel
`f > n` is enough for `base ≥ 2` since the argument shrinks by `/ base`. -/
def toBaseCore (base : Nat) : Nat → Nat → List Char
| 0, _ => []
| f + 1, n =>
    if n < base then [digitChar n]
    else toBaseCore base f (n / base) ++ [digitChar (n % base)]

/-- Decimal rendering of a natural number. -/
def toDec (n : Nat) : List Char := toBaseCore 10 (n + 1) n

/-- Lowercase hexadecimal rendering of a natural number (`{:x}`). -/
def toHexChars (n : Nat) : List Char := toBaseCore 16 (n + 1) n

/-- Rendering of an `i32` with Rust's `{}` formatter. -/
def intRepr (i : Int) : List Char :=
  if i < 0 then '-' :: toDec i.natAbs else toDec i.toNat

/-- Value of a decimal digit character. -/
def decDigitVal (c : Char) : Option Nat :=
  if '0' ≤ c ∧ c ≤ '9' then some (c.toNat - 48) else none

/-- Value of a hexadecimal digit character (both cases accepted,
as by `u32::from_str_radix(_, 16)`). -/
def hexDigitVal (c : Char) : Option Nat :=
  if '0' ≤ c ∧ c ≤ '9' then some (c.toNat - 48)
  else if 'a' ≤ c ∧ c ≤ 'f' then some (c.toNat - 87)
  else if 'A' ≤ c ∧ c ≤ 'F' then some (c.toNat - 55)
  else none

/-- Accumulating most-significant-first digit evaluation. -/
def digitsValGo (dv : Char → Option Nat) (base : Nat) : Nat → List Char → Option Nat
| acc, [] => some acc
| acc, c :: cs =>
    match dv c with
    | some d => digitsValGo dv base (acc * base + d) cs
    | none => none

/-- Value of a nonempty digit string (`none` on empty input or on any
non-digit character). -/
def digitsVal (dv : Char → Option Nat) (base : Nat) (cs : List Char) : Option Nat :=
  match cs with
  | [] => none
  | _ => digitsValGo dv base 0 cs

/-- `str::parse::<i32>`: optional sign, decimal digits, in-range check
(the empty string and empty digit runs fail). -/
def parseI32 (cs : List Char) : Option Int :=
  match cs with
  | [] => none
  | c :: rest =>
      if c = '+' then
        (digitsVal decDigitVal 10 rest).bind fun n =>
          if n ≤ 2 ^ 31 - 1 then some (Int.ofNat n) else none
      else if c = '-' then
        (digitsVal decDigitVal 10 rest).bind fun n =>
          if n ≤ 2 ^ 31 then some (-(Int.ofNat n)) else none
      else
        (digitsVal decDigitVal 10 (c :: rest)).bind fun n =>
          if n ≤ 2 ^ 31 - 1 then some (Int.ofNat n) else none

/-- `u32::from_str_radix(_, 16)` as used by `parse_hex` (parser.rs):
optional leading `+`, hex digits, overflow rejected. -/
def parseHexU32 (cs : List Char) : Except ParseErr Nat :=
  let ds := match cs with
            | [] => []
            | c :: rest => if c = '+' then rest else c :: rest
  match digitsVal hexDigitVal 16 ds with
  | some n => if n < 2 ^ 32 then .ok n else .error .BadHexLiteral
  | none => .error .BadHexLiteral

/-! ## The display formatter (display.rs) -/

mutual

/-- `impl fmt::Display for Word` (display.rs). -/
def displayWord : Word → List Char
| .Int i => intRepr i
| .Hex h => '#' :: toHexChars h
| .Str s => '"' :: s.data ++ ['"']
| .Atom a => a.data
| .List ws =>
    if ws.isEmpty then [lbrace, rbrace]
    else lbrace :: ' ' :: displayWords ws ++ [' ', rbrace]
| .Dict d =>
    if d.isEmpty then 'd' :: 'i' :: 'c' :: 't' :: ' ' :: [lbrace, rbrace]
    else 'd' :: 'i' :: 'c' :: 't' :: ' ' :: lbrace :: ' ' ::
      displayEntries d ++ [' ', rbrace]

/-- `Flattenable::flatten` with separator `" "`: space-joined renderings. -/
def displayWords : List Word → List Char
| [] => []
| [w] => displayWord w
| w :: ws => displayWord w ++ ' ' :: displayWords ws

/-- `Flattenable::flatten` for dict entries (`"k = v"` joined by `"; "`). -/
def displayEntries : List (String × Word) → List Char
| [] => []
| [(k, v)] => k.data ++ ' ' :: '=' :: ' ' :: displayWord v
| (k, v) :: es =>
    (k.data ++ ' ' :: '=' :: ' ' :: displayWord v) ++ ';' :: ' ' :: displayEntries es

end

/-- `impl fmt::Display for TypeName` (display.rs). -/
def typeNameStr : TypeName → List Char
| .Atom => "atom".data
| .Int => "integer".data
| .Hex => "hex".data
| .Str => "string".data
| .List => "list".data

/-- `impl fmt::Display for ParseErr` (display.rs). -/
def parseErrStr : ParseErr → List Char
| .MissingOpenBrace => 'm' :: 'i' :: 's' :: 's' :: 'i' :: 'n' :: 'g' :: ' ' :: [lbrace]
| .MissingCloseBrace => 'm' :: 'i' :: 's' :: 's' :: 'i' :: 'n' :: 'g' :: ' ' :: [rbrace]
| .MissingEndQuote => "missing \"".data
| .BadHexLiteral => "invalid hex format".data

/-- `impl fmt::Display for EvalErr` (display.rs).  The Rust `match` has no
arm for `IllegalStackEffect`; that variant is never constructed by the
interpreter, and the embedding maps it to the empty string. -/
def evalErrStr : EvalErr → List Char
| .StackUnderflow => "stack underflow".data
| .DivideByZero => "divided by zero".data
| .CantCoerce w t => "cannot convert ".data ++ displayWord w ++ " to ".data ++ typeNameStr t
| .WrongType w t => "type of ".data ++ displayWord w ++ " is not ".data ++ typeNameStr t
| .CantUnderstand name =>
    "can".data ++ Char.ofNat 39 :: "t understand ".data ++ name.data
| .BadParse e => parseErrStr e
| .EmptyList => "empty list".data
| .MacroFailed => "bad arguments for macro".data
| .IllegalStackEffect _ _ => []

/-! ## The parser (parser.rs) -/

/-- Rust `char::is_whitespace` (the Unicode `White_Space` set). -/
def isWhite (c : Char) : Bool :=
  let n := c.toNat
  (9 ≤ n && n ≤ 13) || n = 32 || n = 0x85 || n = 0xA0 || n = 0x1680 ||
  (0x2000 ≤ n && n ≤ 0x200A) || n = 0x2028 || n = 0x2029 || n = 0x202F ||
  n = 0x205F || n = 0x3000

/-- `word_break` (parser.rs): where a word token ends, including the
special treatment of `=`. -/
def wordBreak (a b : Char) : Bool :=
  if isWhite b then true
  else if b = lbrace || b = ';' || b = rbrace then true
  else if a = '=' && b = '=' then false
  else if a = '=' then true
  else if b = '=' then true
  else false

/-- The string-literal loop of `parse`: characters up to the closing
quote, `none` when the input ends first (`MissingEndQuote`). -/
def scanStr : List Char → Option (List Char × List Char)
| [] => none
| c :: rest =>
    if c = '"' then some ([], rest)
    else match scanStr rest with
         | none => none
         | some (s, r) => some (c :: s, r)

/-- The word-scanning loop of `parse`: absorb characters while
`word_break prev ch` is false.  Returns the absorbed suffix and the rest. -/
def scanWord (prev : Char) : List Char → (List Char × List Char)
| [] => ([], [])
| c :: rest =>
    if wordBreak prev c then ([], c :: rest)
    else
      let (w, r) := scanWord c rest
      (c :: w, r)

/-- The comment loop of `parse`: drop characters up to and including the
next newline. -/
def dropComment : List Char → List Char
| [] => []
| c :: rest => if c = '\n' then rest else dropComment rest

/-- One statement line: words in encounter order (`type Line`). -/
abbrev Line := List Word

/-- One open block: the current line plus the previously completed lines,
most recent first (`type Block`, a `Vec<Line>` whose last entry is the
line currently accumulating). -/
abbrev Block := Line × List Line

/-- `struct Stack(Vec<Block>)`: head is the innermost open block. -/
abbrev PStack := List Block

/-- `Stack::push`: open a block with one empty line. -/
def pushBlock (st : PStack) : PStack := ([], []) :: st

/-- `Stack::emit`: append a word to the innermost block's current line. -/
def emit (w : Word) : PStack → Except ParseErr PStack
| [] => .error .MissingOpenBrace
| (cur, prev) :: bs => .ok ((cur ++ [w], prev) :: bs)

/-- `Stack::newline`: terminate the current line, open a fresh one. -/
def newline : PStack → Except ParseErr PStack
| [] => .error .MissingOpenBrace
| (cur, prev) :: bs => .ok (([], cur :: prev) :: bs)

/-- The per-block part of `Stack::flatten`: lines in reverse order of
appearance (the current line, then previously completed lines most
recent first), each line's words kept in encounter order. -/
def flattenBlock (b : Block) : List Word := b.1 ++ b.2.flatten

/-- `Stack::pop` (the `}` handler): flatten the innermost block into a
`List` word and emit it into the parent block. -/
def popBlock : PStack → Except ParseErr PStack
| [] => .error .MissingOpenBrace
| b :: bs => emit (.List (flattenBlock b)) bs

/-- End-of-input handling of `parse`: flatten the top block; fail with
`MissingCloseBrace` when any block is left open. -/
def finish : PStack → Except ParseErr (List Word)
| [] => .error .MissingOpenBrace
| b :: bs => if bs.isEmpty then .ok (flattenBlock b) else .error .MissingCloseBrace

/-- The main loop of `parse` (parser.rs).  Fuel counts loop iterations;
each iteration consumes at least one character, so any fuel of at least
the input length gives the loop's actual result (`processF_fuel`).  The
fuel-exhausted value is never reached under that bound. -/
def processF : Nat → List Char → PStack → Except ParseErr (List Word)
| _, [], st => finish st
| 0, _ :: _, _ => .error .MissingCloseBrace
| f + 1, c :: rest, st =>
    if c = lbrace then processF f rest (pushBlock st)
    else if c = rbrace then
      match popBlock st with
      | .error e => .error e
      | .ok st' => processF f rest st'
    else if c = '"' then
      match scanStr rest with
      | none => .error .MissingEndQuote
      | some (s, r) =>
        match emit (.Str (String.mk s)) st with
        | .error e => .error e
        | .ok st' => processF f r st'
    else if c = ';' || c = '\n' then
      match newline st with
      | .error e => .error e
      | .ok st' => processF f rest st'
    else if isWhite c then processF f rest st
    else
      let (w, r) := scanWord c rest
      let word := c :: w
      if word = ['#'] || word.take 2 = ['#', '!'] then processF f (dropComment r) st
      else if c = '#' then
        match parseHexU32 w with
        | .error e => .error e
        | .ok h =>
          match emit (.Hex h) st with
          | .error e => .error e
          | .ok st' => processF f r st'
      else
        match parseI32 word with
        | some i =>
          match emit (.Int i) st with
          | .error e => .error e
          | .ok st' => processF f r st'
        | none =>
          match emit (.Atom (String.mk word)) st with
          | .error e => .error e
          | .ok st' => processF f r st'

/-- `parse` (parser.rs): run the loop on the text with one open block. -/
def parse (s : String) : Except ParseErr (List Word) :=
  processF s.data.length s.data (pushBlock [])


/-! ## Dictionary, bindings and stack-effect signatures (lib.rs) -/

/-- `struct TypeSpec`: declared stack effect of a word. -/
structure TypeSpec where
  input : Nat
  output : Nat
  exact : Bool
deriving Inhabited, DecidableEq

/-- `enum Builtin` (lib.rs). -/
inductive Builtin where
| Bye | Assign | Eval | Expand | If | Try | PopEH | Quote | Explode
| Capture | Debug | Inspect | Len | Append | Push | Pop | Shift | Unshift
| Parse | Echo | Prompt | Command | Load | Flatten | Pick | Roll | Drop
| Clear | Strcat | Lines | Hex | Int | OpAdd | OpSub | OpMul | OpDiv
| OpNeg | OpEql | OpLt | OpGt | InfixExpr
deriving Inhabited, DecidableEq

/-- `enum Binding` (lib.rs). -/
inductive Binding where
| Primitive : Builtin → Binding
| Interpreted : TypeSpec → Word → Binding
deriving Inhabited

/-- The interpreter's dictionary: an `OrderMap<String, Binding>`. -/
abbrev Dict := List (String × Binding)

/-- `OrderMap::get` followed by `cloned()`. -/
def omGet (k : String) : List (String × α) → Option α
| [] => none
| (k', v) :: rest => if k' = k then some v else omGet k rest

/-- `OrderMap::insert`: replace in place when the key exists, else append. -/
def omInsert (k : String) (v : α) : List (String × α) → List (String × α)
| [] => [(k, v)]
| (k', v') :: rest =>
    if k' = k then (k', v) :: rest else (k', v') :: omInsert k v rest

/-- `struct Env` (lib.rs): a recovery snapshot. -/
structure Env where
  dict : Dict
  data : List Word
  code : List Word

/-- `struct Shell` (lib.rs).  `data` has its head at the stack top
(`VecDeque` front); `code` has its head at the stack top (the back of the
Rust `Vec` reversed). -/
structure Shell where
  dict : Dict
  data : List Word
  code : List Word
  restore : List Env

/-- `Shell::load` / `Vec::extend` onto the code stack: in the reversed
representation the spliced words go, reversed, onto the head. -/
def Shell.loadWords (ws : List Word) (s : Shell) : Shell :=
  { s with code := ws.reverse ++ s.code }

/-- `Shell::push` (`VecDeque::push_front`). -/
def Shell.push (w : Word) (s : Shell) : Shell :=
  { s with data := w :: s.data }

/-- `Shell::pop` (`VecDeque::pop_front`, `StackUnderflow` when empty). -/
def Shell.pop (s : Shell) : Except EvalErr (Word × Shell) :=
  match s.data with
  | [] => .error .StackUnderflow
  | w :: rest => .ok (w, { s with data := rest })

/-- `Builtin::get_type` (lib.rs): primitive stack-effect table. -/
def Builtin.getType : Builtin → TypeSpec
| .Bye => ⟨0, 0, false⟩
| .Assign => ⟨1, 0, false⟩
| .Eval => ⟨1, 0, false⟩
| .Expand => ⟨2, 0, false⟩
| .If => ⟨3, 0, false⟩
| .Try => ⟨2, 0, false⟩
| .PopEH => ⟨0, 0, true⟩
| .Quote => ⟨0, 0, false⟩
| .Explode => ⟨1, 0, false⟩
| .Capture => ⟨0, 0, false⟩
| .Debug => ⟨0, 0, true⟩
| .Inspect => ⟨1, 0, true⟩
| .Len => ⟨1, 1, true⟩
| .Append => ⟨2, 1, true⟩
| .Strcat => ⟨2, 1, true⟩
| .Push => ⟨2, 1, true⟩
| .Pop => ⟨1, 2, true⟩
| .Shift => ⟨1, 2, true⟩
| .Unshift => ⟨2, 1, true⟩
| .Parse => ⟨1, 1, true⟩
| .Echo => ⟨1, 0, true⟩
| .Prompt => ⟨1, 1, true⟩
| .Command => ⟨2, 1, true⟩
| .Load => ⟨1, 1, true⟩
| .Flatten => ⟨2, 1, true⟩
| .Pick => ⟨2, 2, true⟩
| .Roll => ⟨2, 1, true⟩
| .Drop => ⟨1, 0, true⟩
| .Clear => ⟨0, 0, false⟩
| .Lines => ⟨1, 1, true⟩
| .Hex => ⟨1, 1, true⟩
| .Int => ⟨1, 1, true⟩
| .OpAdd => ⟨2, 1, true⟩
| .OpDiv => ⟨2, 1, true⟩
| .OpSub => ⟨2, 1, true⟩
| .OpMul => ⟨2, 1, true⟩
| .OpNeg => ⟨1, 1, true⟩
| .OpEql => ⟨2, 1, true⟩
| .OpGt => ⟨2, 1, true⟩
| .OpLt => ⟨2, 1, true⟩
| .InfixExpr => ⟨0, 0, false⟩

/-- `Builtin::default_bindings` (lib.rs), in insertion order. -/
def defaultBindings : Dict :=
  [("bye", .Primitive .Bye), ("=", .Primitive .Assign),
   ("eval", .Primitive .Eval), ("expand", .Primitive .Expand),
   ("if", .Primitive .If), ("try", .Primitive .Try),
   ("popeh", .Primitive .PopEH), ("quote", .Primitive .Quote),
   ("explode", .Primitive .Explode), ("capture", .Primitive .Capture),
   ("debug", .Primitive .Debug), ("inspect", .Primitive .Inspect),
   ("len", .Primitive .Len), ("append", .Primitive .Append),
   ("push", .Primitive .Push), ("pop", .Primitive .Pop),
   ("shift", .Primitive .Shift), ("unshift", .Primitive .Unshift),
   ("parse", .Primitive .Parse), ("echo", .Primitive .Echo),
   ("prompt", .Primitive .Prompt), ("command", .Primitive .Command),
   ("load", .Primitive .Load), ("flatten", .Primitive .Flatten),
   ("pick", .Primitive .Pick), ("roll", .Primitive .Roll),
   ("drop", .Primitive .Drop), ("clear", .Primitive .Clear),
   ("strcat", .Primitive .Strcat), ("lines", .Primitive .Lines),
   ("hex", .Primitive .Hex), ("int", .Primitive .Int),
   ("+", .Primitive .OpAdd), ("-", .Primitive .OpSub),
   ("*", .Primitive .OpMul), ("/", .Primitive .OpDiv),
   ("~", .Primitive .OpNeg), ("==", .Primitive .OpEql),
   ("<", .Primitive .OpLt), (">", .Primitive .OpGt),
   ("))", .Primitive .InfixExpr)]

/-- `TypeSpec::literal`: the effect of pushing one literal. -/
def TypeSpec.literal : TypeSpec := ⟨0, 1, true⟩

/-- `TypeSpec::merge` (lib.rs).  The Rust method returns
`Result<(), EvalErr>` but always returns `Ok`, so the embedding is the
pure composition. -/
def TypeSpec.merge (self rhs : TypeSpec) : TypeSpec :=
  let (input, output) :=
    if self.output < rhs.input then
      (self.input + (rhs.input - self.output), 0)
    else
      (self.input, self.output - rhs.input)
  ⟨input, output + rhs.output, self.exact && rhs.exact⟩

/-- `Shell::get_type` (lib.rs): the signature a single word contributes to
inference — `literal` for any non-atom, the binding's stored or primitive
signature for a known atom, `none` for an unknown atom. -/
def getTypeWord (dict : Dict) (w : Word) : Option TypeSpec :=
  match w with
  | .Atom name =>
      (omGet name dict).map fun b =>
        match b with
        | .Primitive prim => prim.getType
        | .Interpreted spec _ => spec
  | _ => some TypeSpec.literal

/-- The loop of `Shell::infer_type` (lib.rs): fold over the words in the
order given (the caller passes the body reversed), stopping as soon as
`exact` is false — whether that came from an unknown atom or from merging
an inexact signature. -/
def inferGo (dict : Dict) : List Word → TypeSpec → TypeSpec
| [], spec => spec
| w :: ws, spec =>
    let spec' :=
      match getTypeWord dict w with
      | some next => spec.merge next
      | none => { spec with exact := false }
    if spec'.exact then inferGo dict ws spec' else spec'

/-- `Shell::infer_type` (lib.rs): scan the stored body back to front
(`def.iter().rev()`, i.e. in execution order).  The Rust signature is a
`Result` but no path returns an error. -/
def inferType (dict : Dict) (body : List Word) : Except EvalErr TypeSpec :=
  .ok (inferGo dict body.reverse ⟨0, 0, true⟩)

/-! ## Word conversions and operations (lib.rs `impl Word` and friends) -/

/-- `Word::as_atom`. -/
def asAtom : Word → Except EvalErr String
| .Atom name => .ok name
| val => .error (.WrongType val .Atom)

/-- `Word::as_bool`: `Int(0)` is false, any other `Int` is true. -/
def asBool : Word → Except EvalErr Bool
| .Int 0 => .ok false
| .Int _ => .ok true
| val => .error (.WrongType val .Int)

/-- `Word::as_int`. -/
def asInt : Word → Except EvalErr Int
| .Int i => .ok i
| val => .error (.WrongType val .Int)

/-- `Word::as_list`. -/
def asList : Word → Except EvalErr (List Word)
| .List words => .ok words
| val => .error (.WrongType val .List)

/-- `Word::as_str`. -/
def asStr : Word → Except EvalErr String
| .Str s => .ok s
| val => .error (.WrongType val .Str)

/-- `Word::into_int`: `Hex` within `i32` range coerces, everything else
but `Int` fails `CantCoerce`. -/
def intoInt : Word → Except EvalErr Int
| .Int i => .ok i
| .Hex h =>
    if h ≤ 2 ^ 31 - 1 then .ok (Int.ofNat h)
    else .error (.CantCoerce (.Hex h) .Int)
| other => .error (.CantCoerce other .Int)

/-- `Word::into_hex`: non-negative `Int` coerces. -/
def intoHex : Word → Except EvalErr Nat
| .Hex h => .ok h
| .Int i => if 0 ≤ i then .ok i.toNat else .error (.CantCoerce (.Int i) .Hex)
| other => .error (.CantCoerce other .Hex)

/-- `Word::into_string`: identity on `Str`, `Display` otherwise. -/
def intoString : Word → String
| .Str s => s
| other => String.mk (displayWord other)

/-- `Word::into_list`: identity on `List`, a singleton otherwise. -/
def intoList : Word → List Word
| .List list => list
| other => [other]

mutual

/-- `impl PartialEq for Word` (lib.rs): structural on all variants except
`Dict`, whose comparison is one-directional containment. -/
def wordEq : Word → Word → Bool
| .Int lhs, .Int rhs => lhs == rhs
| .Hex lhs, .Hex rhs => lhs == rhs
| .Atom lhs, .Atom rhs => lhs == rhs
| .Str lhs, .Str rhs => lhs == rhs
| .List lhs, .List rhs => listEq lhs rhs
| .Dict lhs, .Dict rhs => dictLe lhs rhs
| _, _ => false

/-- `VecDeque` equality: same length, elements pairwise `wordEq`. -/
def listEq : List Word → List Word → Bool
| [], [] => true
| a :: as_, b :: bs => wordEq a b && listEq as_ bs
| _, _ => false

/-- The `Dict` arm of `PartialEq` (lib.rs): every key of the left map is
present in the right with a `wordEq`-equal value. -/
def dictLe : List (String × Word) → List (String × Word) → Bool
| [], _ => true
| (k, v) :: rest, rhs =>
    (match omGet k rhs with
     | some w => wordEq v w
     | none => false) && dictLe rest rhs

end

mutual

/-- `Word::expand` (lib.rs): substitute bound atoms, recurse into lists,
leave every other word unchanged. -/
def wordExpand : Word → List (String × Word) → Word
| .Atom name, dict =>
    (match omGet name dict with
     | some v => v
     | none => .Atom name)
| .List words, dict => .List (wordsExpand words dict)
| other, _ => other

/-- Pointwise `Word::expand` over a word sequence. -/
def wordsExpand : List Word → List (String × Word) → List Word
| [], _ => []
| w :: ws, dict => wordExpand w dict :: wordsExpand ws dict

end

/-- `impl From<bool> for Word`: comparisons push `Int 1` / `Int 0`. -/
def fromBool (b : Bool) : Word := if b then .Int 1 else .Int 0

/-- Two's-complement wrap into the `i32` range, the release-mode result
of Rust's overflowing `i32` arithmetic and `as i32` casts. -/
def wrap32 (n : Int) : Int := (n + 2 ^ 31) % 2 ^ 32 - 2 ^ 31

/-- `i32` division truncates toward zero (divisor nonzero, no overflow:
both guaranteed by `checked_div`'s guard). -/
def tdivI (a b : Int) : Int :=
  let q : Int := Int.ofNat (a.natAbs / b.natAbs)
  if (decide (a < 0)) != (decide (b < 0)) then -q else q

/-- `VecDeque::pop_back`: split off the last element. -/
def popBack : List Word → Option (List Word × Word)
| [] => none
| [w] => some ([], w)
| w :: ws =>
    match popBack ws with
    | some (l, v) => some (w :: l, v)
    | none => none

/-- Rust `str::lines`: split at `'\n'`, strip a `'\r'` preceding each
split point, no trailing empty line. -/
def stripCR (l : List Char) : List Char :=
  match l.getLast? with
  | some c => if c = '\r' then l.dropLast else l
  | none => l

/-- The accumulator loop behind `str::lines` (current line reversed). -/
def rustLinesGo : List Char → List Char → List (List Char)
| cur, [] => if cur.isEmpty then [] else [cur.reverse]
| cur, c :: rest =>
    if c = '\n' then stripCR cur.reverse :: rustLinesGo [] rest
    else rustLinesGo (c :: cur) rest

/-- `str::lines` over a whole string. -/
def rustLines (s : String) : List (List Char) := rustLinesGo [] s.data

/-- `Flattenable::flatten` with an arbitrary separator (the `flatten`
builtin): renderings of the words joined by `sep`. -/
def listFlatten (ws : List Word) (sep : List Char) : List Char :=
  List.intercalate sep (ws.map displayWord)

/-- `Shell::lookup` (lib.rs). -/
def lookup (name : String) (dict : Dict) : Except EvalErr Binding :=
  match omGet name dict with
  | some b => .ok b
  | none => .error (.CantUnderstand name)

/-- The loop inside the `expand` builtin: one popped value per name, each
name checked by `as_atom`, inserted in iteration order. -/
def expandLoop : List Word → Shell → List (String × Word) →
    Except EvalErr (List (String × Word) × Shell)
| [], s, dict => .ok (dict, s)
| w :: ws, s, dict => do
    let name ← asAtom w
    let (v, s) ← s.pop
    expandLoop ws s (omInsert name v dict)

/-- `Shell::int_binop` (lib.rs): pop and coerce the left operand, then
the right, then push the operation's word. -/
def intBinop (op : Int → Int → Except EvalErr Word) (s : Shell) :
    Except EvalErr Shell := do
  let (l, s) ← s.pop
  let lhs ← intoInt l
  let (r, s) ← s.pop
  let rhs ← intoInt r
  let w ← op lhs rhs
  .ok (s.push w)

/-- `Shell::do_builtin` (lib.rs).  `Prompt`, `Command` and `Load` perform
blocking console/file/process I/O (external collaborators, spec §6); they
are outside the pure model and return `none`.  `Echo`, `Debug` and
`Inspect` only write to the console beyond their modelled stack effect. -/
def doBuiltin : Builtin → Shell → Option (Except EvalErr Shell)
| .Bye, s => some (.ok { s with code := [] })
| .Assign, s =>
    some (match s.code with
    | [] => .error .MacroFailed
    | nameW :: code' => do
        let name ← asAtom nameW
        let (value, s) ← Shell.pop { s with code := code' }
        let typespec ←
          match value with
          | .List items => inferType s.dict items
          | _ => .ok TypeSpec.literal
        .ok { s with dict := omInsert name (.Interpreted typespec value) s.dict })
| .Eval, s =>
    some (do
      let (w, s) ← s.pop
      match w with
      | .List words => .ok (s.loadWords words)
      | other => .ok (s.push other))
| .Expand, s =>
    some (do
      let (n, s) ← s.pop
      let names ← asList n
      let (body, s) ← s.pop
      let (dict, s) ← expandLoop names s []
      .ok (s.push (wordExpand body dict)))
| .If, s =>
    some (do
      let (t, s) ← s.pop
      let test ← asBool t
      let (c, s) ← s.pop
      let consequent ← asList c
      let (a, s) ← s.pop
      let alternative ← asList a
      .ok (s.loadWords (if test then consequent else alternative)))
| .Try, s =>
    some (do
      let (b, s) ← s.pop
      let body ← asList b
      let (c, s) ← s.pop
      let catchL ← asList c
      let env : Env := ⟨s.dict, s.data, catchL.reverse ++ s.code⟩
      let s := { s with restore := env :: s.restore }
      .ok (Shell.loadWords body { s with code := .Atom "popeh" :: s.code }))
| .PopEH, s => some (.ok { s with restore := s.restore.tail })
| .Quote, s =>
    some (match s.code with
    | [] => .error .MacroFailed
    | w :: code' => .ok { s with code := code', data := w :: s.data })
| .Explode, s =>
    some (do
      let (w, s) ← s.pop
      let items ← asList w
      .ok { s with data := s.data ++ items })
| .Capture, s => some (.ok (s.push (.List s.data)))
| .Debug, s => some (.ok s)
| .Inspect, s =>
    some (do
      let (w, s) ← s.pop
      let name ← asAtom w
      let _ ← lookup name s.dict
      .ok s)
| .Len, s =>
    some (do
      let (w, s) ← s.pop
      let list ← asList w
      .ok (s.push (.Int (wrap32 list.length))))
| .Append, s =>
    some (do
      let (l, s) ← s.pop
      let lhs ← asList l
      let (r, s) ← s.pop
      let rhs ← asList r
      .ok (s.push (.List (lhs ++ rhs))))
| .Push, s =>
    some (do
      let (value, s) ← s.pop
      let (l, s) ← s.pop
      let list ← asList l
      .ok (s.push (.List (list ++ [value]))))
| .Pop, s =>
    some (do
      let (l, s) ← s.pop
      let list ← asList l
      match popBack list with
      | none => .error .EmptyList
      | some (list', value) => .ok ((s.push (.List list')).push value))
| .Shift, s =>
    some (do
      let (l, s) ← s.pop
      let list ← asList l
      match list with
      | [] => .error .EmptyList
      | value :: list' => .ok ((s.push (.List list')).push value))
| .Unshift, s =>
    some (do
      let (value, s) ← s.pop
      let (l, s) ← s.pop
      let list ← asList l
      .ok (s.push (.List (value :: list))))
| .Parse, s =>
    some (do
      let (w, s) ← s.pop
      let source ← asStr w
      match parse source with
      | .ok program => .ok (s.push (.List program))
      | .error e => .error (.BadParse e))
| .Echo, s =>
    some (do
      let (w, s) ← s.pop
      let _ := intoString w
      .ok s)
| .Prompt, _ => none
| .Command, _ => none
| .Load, _ => none
| .Flatten, s =>
    some (do
      let (sep, s) ← s.pop
      let (l, s) ← s.pop
      .ok (s.push (.Str (String.mk (listFlatten (intoList l) (intoString sep).data)))))
| .Pick, s =>
    some (do
      let (iw, s) ← s.pop
      let i ← intoHex iw
      match s.data.get? i with
      | some word => .ok (s.push word)
      | none => .error .StackUnderflow)
| .Roll, s =>
    some (do
      let (iw, s) ← s.pop
      let i ← intoHex iw
      match s.data.get? i with
      | some word => .ok { s with data := word :: s.data.eraseIdx i }
      | none => .error .StackUnderflow)
| .Drop, s =>
    some (do
      let (_, s) ← s.pop
      .ok s)
| .Clear, s => some (.ok { s with data := [] })
| .Strcat, s =>
    some (do
      let (l, s) ← s.pop
      let lhs := intoString l
      let (r, s) ← s.pop
      let rhs := intoString r
      .ok (s.push (.Str (lhs ++ rhs))))
| .Lines, s =>
    some (do
      let (w, s) ← s.pop
      let string ← asStr w
      .ok (s.push (.List ((rustLines string).map fun l => .Str (String.mk l)))))
| .Hex, s =>
    some (do
      let (w, s) ← s.pop
      let hex ← intoHex w
      .ok (s.push (.Hex hex)))
| .Int, s =>
    some (do
      let (w, s) ← s.pop
      let int ← intoInt w
      .ok (s.push (.Int int)))
| .OpAdd, s => some (intBinop (fun x y => .ok (.Int (wrap32 (x + y)))) s)
| .OpSub, s => some (intBinop (fun x y => .ok (.Int (wrap32 (x - y)))) s)
| .OpMul, s => some (intBinop (fun x y => .ok (.Int (wrap32 (x * y)))) s)
| .OpDiv, s =>
    some (intBinop (fun x y =>
      if y = 0 || (x = -(2 ^ 31) && y = -1) then .error .DivideByZero
      else .ok (.Int (tdivI x y))) s)
| .OpNeg, s =>
    some (do
      let (w, s) ← s.pop
      let positive ← asInt w
      .ok (s.push (.Int (wrap32 (-positive)))))
| .OpEql, s =>
    some (do
      let (lhs, s) ← s.pop
      let (rhs, s) ← s.pop
      .ok (s.push (fromBool (wordEq lhs rhs))))
| .OpGt, s => some (intBinop (fun x y => .ok (fromBool (decide (x > y)))) s)
| .OpLt, s => some (intBinop (fun x y => .ok (fromBool (decide (x < y)))) s)
| .InfixExpr, s =>
    some (match s.code with
    | rhs :: op :: lhs :: code' =>
        (match code' with
         | .Atom name :: code'' =>
             if name = "((" then .ok { s with code := rhs :: lhs :: op :: code'' }
             else .error .MacroFailed
         | _ => .error .MacroFailed)
    | _ => .error .MacroFailed)

/-- Execution of one resolved atom: `Shell::run`'s `lookup ... and_then`
body — primitive dispatch, or the interpreted-binding path with its
stack-depth precondition and code splice. -/
def execAtom (name : String) (s : Shell) : Option (Except EvalErr Shell) :=
  match omGet name s.dict with
  | none => some (.error (.CantUnderstand name))
  | some (.Primitive op) => doBuiltin op s
  | some (.Interpreted typespec w) =>
      some (
        if s.data.length < typespec.input then .error .StackUnderflow
        else .ok (
          match w with
          | .List words => s.loadWords words
          | other => { s with code := other :: s.code }))

/-- Result of one iteration of `Shell::run`'s loop. -/
inductive StepRes where
| done : StepRes
| next : Shell → StepRes
| fail : EvalErr → StepRes
| ext : String → StepRes

/-- One iteration of `Shell::run` (lib.rs): pop a code word; push a
non-atom; execute an atom, recovering from its error when a snapshot is
available (the failing operations never touch `restore` before
erroring, so the snapshot stack seen by `or_else` is the one from before
the atom ran).  `ext` marks a blocking-I/O builtin (outside the model). -/
def step (s : Shell) : StepRes :=
  match s.code with
  | [] => .done
  | .Atom name :: rest =>
      let s' := { s with code := rest }
      (match execAtom name s' with
       | none => .ext name
       | some (.ok s'') => .next s''
       | some (.error err) =>
           match s'.restore with
           | env :: envs =>
               .next { dict := env.dict,
                       data := .Str (String.mk
                         (name.data ++ " error: ".data ++ evalErrStr err)) :: env.data,
                       code := env.code,
                       restore := envs }
           | [] => .fail err)
  | other :: rest => .next { s with code := rest, data := other :: s.data }

/-- `Shell::run` driven for `fuel` iterations.  `some` results are
definitive (`.ok` final state when the code stack drains, `.error` on an
unrecovered error); `none` means fuel ran out or an external-I/O builtin
was reached. -/
def runFuel : Nat → Shell → Option (Except EvalErr Shell)
| 0, _ => none
| f + 1, s =>
    match step s with
    | .done => some (.ok s)
    | .fail e => some (.error e)
    | .next s' => runFuel f s'
    | .ext _ => none

/-- A shell as `Shell::new` builds it, before the stdlib runs, loaded
with a program (the stdlib text is not part of the sources; no claim
depends on it). -/
def shellWith (prog : List Word) : Shell :=
  Shell.loadWords prog ⟨defaultBindings, [], [], []⟩


/-! ## Reference definitions written from the specification's wording

These are deliberately *not* read off the Rust sources: they formalise
sentences of the specification, to be compared against the embedded code.
-/

/-- Modelled from the claim's wording (C4): `expand` popping the name
list first, then one value per name, and the body Word last. -/
def expandClaimOrder (s : Shell) : Option (Except EvalErr Shell) :=
  some (do
    let (n, s) ← s.pop
    let names ← asList n
    let (dict, s) ← expandLoop names s []
    let (body, s) ← s.pop
    .ok (s.push (wordExpand body dict)))

/-- The signature a binding contributes to inference. -/
def bindingSpec : Binding → TypeSpec
| .Primitive prim => prim.getType
| .Interpreted spec _ => spec

/-- Modelled from the claim's wording (C5): composition of a running
effect `self` with the effect `next` of the next word consumed — the
deficit `next.input - self.output` is added to `self.input` and the
output zeroed when `self.output < next.input`, otherwise `next.input` is
subtracted from the output; then `next.output` is added. -/
def claimCompose (self next : TypeSpec) : TypeSpec :=
  if self.output < next.input then
    ⟨self.input + (next.input - self.output), 0 + next.output, self.exact && next.exact⟩
  else
    ⟨self.input, self.output - next.input + next.output, self.exact && next.exact⟩

/-- Modelled from the claim's wording (C5): fold over the body in reverse
of stored order; literals contribute `{input 0, output 1}`, known atoms
their stored or primitive signature, and an unknown atom marks the result
inexact and stops the scan (the only stated stopping rule). -/
def claimFoldGo (dict : Dict) : List Word → TypeSpec → TypeSpec
| [], spec => spec
| w :: ws, spec =>
    match w with
    | .Atom name =>
        (match omGet name dict with
         | some b => claimFoldGo dict ws (claimCompose spec (bindingSpec b))
         | none => { spec with exact := false })
    | _ => claimFoldGo dict ws (claimCompose spec TypeSpec.literal)

/-- The C5 reference fold over a stored definition body. -/
def claimFold (dict : Dict) (body : List Word) : TypeSpec :=
  claimFoldGo dict body.reverse ⟨0, 0, true⟩

/-- The C5 fold amended minimally: the scan stops as soon as the running
signature's `exact` flag goes false — after an unknown atom *or* after
composing any known-but-inexact signature — not only at unknown atoms. -/
def amendFoldGo (dict : Dict) : List Word → TypeSpec → TypeSpec
| [], spec => spec
| w :: ws, spec =>
    let spec' :=
      match w with
      | .Atom name =>
          (match omGet name dict with
           | some b => claimCompose spec (bindingSpec b)
           | none => { spec with exact := false })
      | _ => claimCompose spec TypeSpec.literal
    if spec'.exact then amendFoldGo dict ws spec' else spec'

/-- The amended C5 reference fold over a stored definition body. -/
def amendFold (dict : Dict) (body : List Word) : TypeSpec :=
  amendFoldGo dict body.reverse ⟨0, 0, true⟩

/-! ## Well-formedness of parser output

`parse` only ever emits words of the following restricted shape; the
round-trip property holds for all of them. -/

mutual

/-- Words that contain no `Dict` anywhere (the parser emits none). -/
def dictFree : Word → Bool
| .Dict _ => false
| .List ws => dictFreeList ws
| _ => true

/-- `dictFree` for every element. -/
def dictFreeList : List Word → Bool
| [] => true
| w :: ws => dictFree w && dictFreeList ws

end

/-- Characters that terminate a word token after *any* previous
character: whitespace and the three delimiters. -/
def breakAlways (c : Char) : Bool :=
  isWhite c || c = lbrace || c = ';' || c = rbrace

/-- A rendering boundary: end of input or a character that always breaks
a word token. -/
def boundaryB : List Char → Bool
| [] => true
| c :: _ => breakAlways c

/-- Characters that neither break a word nor interact with the `=` rule. -/
def plainChar (c : Char) : Bool :=
  !isWhite c && c ≠ lbrace && c ≠ ';' && c ≠ rbrace && c ≠ '='

/-- No internal word break: consecutive characters never satisfy
`wordBreak`. -/
def noBreakRun : List Char → Bool
| [] => true
| [_] => true
| a :: b :: rest => !wordBreak a b && noBreakRun (b :: rest)

/-- Admissible first character of an atom token: one that reaches the
word-scanning branch of `parse` and is not the hex/comment sigil. -/
def atomFirstOk (c : Char) : Bool :=
  !isWhite c && c ≠ lbrace && c ≠ rbrace && c ≠ '"' && c ≠ ';' && c ≠ '#'

/-- Atom names as the parser produces them: nonempty, admissible first
character, no internal break, not parseable as an `i32`. -/
def wfAtom : List Char → Bool
| [] => false
| c :: t => atomFirstOk c && noBreakRun (c :: t) && (parseI32 (c :: t)).isNone

mutual

/-- Shape invariant of every word `parse` emits (C7): atoms as scanned,
integers in `i32` range, hex below `2 ^ 32`, strings without a quote,
lists of the same, and never a `Dict`. -/
def wfWord : Word → Bool
| .Atom a => wfAtom a.data
| .Int i => decide (-(2 ^ 31) ≤ i) && decide (i ≤ 2 ^ 31 - 1)
| .Hex h => decide (h < 2 ^ 32)
| .Str s => s.data.all (fun c => c ≠ '"')
| .List ws => wfWords ws
| .Dict _ => false

/-- `wfWord` for every element. -/
def wfWords : List Word → Bool
| [] => true
| w :: ws => wfWord w && wfWords ws

end

/-- `wfWords` for every line of a block. -/
def wfLines : List Line → Bool
| [] => true
| l :: ls => wfWords l && wfLines ls

/-- Well-formedness of the whole parser stack. -/
def wfStack : PStack → Bool
| [] => true
| (cur, prev) :: bs => wfWords cur && wfLines prev && wfStack bs

/-- `Stack::emit` into the top block, defined on a bare block for the
round-trip lemmas. -/
def emitB (w : Word) (b : Block) : Block := (b.1 ++ [w], b.2)

/-- The splice performed when an interpreted binding's value runs: a
`List` is spliced onto the code stack, any other word is pushed back as
code (`Shell::run`, lib.rs). -/
def spliceW (w : Word) (s : Shell) : Shell :=
  match w with
  | .List words => s.loadWords words
  | other => { s with code := other :: s.code }

/-- Source text for a sequence of statement lines: the lines' renderings
separated by `;` (C2). -/
def joinSemis : List (List Word) → List Char
| [] => []
| [l] => displayWords l
| l :: ls => displayWords l ++ ';' :: joinSemis ls

/-- The flattened program that parsing a `;`-separated sequence of lines
produces, starting from an open block `(cur, prev)`: each line is
appended to the current line, a separator completes it. -/
def lineFoldFlat : List (List Word) → Line → List Line → List Word
| [], cur, prev => cur ++ prev.flatten
| l :: ls, cur, prev => lineFoldFlat ls [] ((cur ++ l) :: prev)

/-! # Theorems

Auxiliary lemmas first, then one theorem (with witness or counterexample
as appropriate) per specification claim. -/

theorem decDigitVal_digitChar : ∀ d, d < 10 → decDigitVal (digitChar d) = some d := by
  decide

theorem hexDigitVal_digitChar : ∀ d, d < 16 → hexDigitVal (digitChar d) = some d := by
  decide

theorem plainChar_digitChar : ∀ d, d < 16 → plainChar (digitChar d) = true := by
  decide

theorem digitChar_not_sign :
    ∀ d, d < 16 → digitChar d ≠ '+' ∧ digitChar d ≠ '-' ∧ digitChar d ≠ '#' ∧
      digitChar d ≠ '!' ∧ digitChar d ≠ '"' ∧ atomFirstOk (digitChar d) = true := by
  decide

theorem toBaseCore_ne_nil (base f n : Nat) (hf : 0 < f) : toBaseCore base f n ≠ [] := by
  match f, hf with
  | f + 1, _ =>
    simp only [toBaseCore]
    split
    · simp
    · simp

theorem toBaseCore_mem (base : Nat) (hb : 2 ≤ base) :
    ∀ f n c, c ∈ toBaseCore base f n → ∃ d, d < base ∧ c = digitChar d := by
  intro f
  induction f with
  | zero => intro n c hc; simp [toBaseCore] at hc
  | succ f ih =>
    intro n c hc
    simp only [toBaseCore] at hc
    by_cases hn : n < base
    · rw [if_pos hn] at hc
      simp at hc
      exact ⟨n, hn, hc⟩
    · rw [if_neg hn] at hc
      simp at hc
      rcases hc with hc | hc
      · exact ih _ c hc
      · exact ⟨n % base, Nat.mod_lt _ (by omega), hc⟩

theorem digitsValGo_append (dv : Char → Option Nat) (base : Nat) :
    ∀ xs ys acc, digitsValGo dv base acc (xs ++ ys) =
      match digitsValGo dv base acc xs with
      | some a => digitsValGo dv base a ys
      | none => none := by
  intro xs
  induction xs with
  | nil => intro ys acc; simp [digitsValGo]
  | cons c cs ih =>
    intro ys acc
    simp only [List.cons_append, digitsValGo]
    cases hdc : dv c
    · simp
    · simp [ih]

theorem toBaseCore_val (dv : Char → Option Nat) (base : Nat) (hb : 2 ≤ base)
    (hdv : ∀ d, d < base → dv (digitChar d) = some d) :
    ∀ f n acc, n < f →
      digitsValGo dv base acc (toBaseCore base f n) =
        some (acc * base ^ (toBaseCore base f n).length + n) := by
  intro f
  induction f with
  | zero => intro n acc hn; omega
  | succ f ih =>
    intro n acc hn
    by_cases h : n < base
    · simp only [toBaseCore, if_pos h]
      simp [digitsValGo, hdv n h]
    · simp only [toBaseCore, if_neg h]
      rw [digitsValGo_append]
      have hrec : n / base < f := by
        have h1 : n / base < n := Nat.div_lt_self (by omega) (by omega)
        omega
      rw [ih (n / base) acc hrec]
      simp only [digitsValGo, hdv (n % base) (Nat.mod_lt _ (by omega))]
      have hmod := Nat.div_add_mod n base
      simp only [List.length_append, List.length_cons, List.length_nil]
      congr 1
      rw [pow_succ]
      ring_nf
      omega

theorem toDec_val (n : Nat) : digitsVal decDigitVal 10 (toDec n) = some n := by
  have hne := toBaseCore_ne_nil 10 (n + 1) n (by omega)
  have hval := toBaseCore_val decDigitVal 10 (by omega) decDigitVal_digitChar
    (n + 1) n 0 (by omega)
  unfold toDec
  rcases h : toBaseCore 10 (n + 1) n with _ | ⟨c, t⟩
  · exact absurd h hne
  · rw [h] at hval
    simp at hval
    simp [digitsVal, hval]

theorem toHex_val (n : Nat) : digitsVal hexDigitVal 16 (toHexChars n) = some n := by
  have hne := toBaseCore_ne_nil 16 (n + 1) n (by omega)
  have hval := toBaseCore_val hexDigitVal 16 (by omega) hexDigitVal_digitChar
    (n + 1) n 0 (by omega)
  unfold toHexChars
  rcases h : toBaseCore 16 (n + 1) n with _ | ⟨c, t⟩
  · exact absurd h hne
  · rw [h] at hval
    simp at hval
    simp [digitsVal, hval]

theorem parseI32_intRepr (i : Int) (h1 : -(2 ^ 31) ≤ i) (h2 : i ≤ 2 ^ 31 - 1) :
    parseI32 (intRepr i) = some i := by
  unfold intRepr
  by_cases hi : i < 0
  · rw [if_pos hi]
    simp only [parseI32]
    simp only [if_true, if_false, reduceIte]
    rw [toDec_val]
    have hr : i.natAbs ≤ 2 ^ 31 := by omega
    simp only [Option.some_bind, if_pos hr]
    have habs : (i.natAbs : Int) = -i := by omega
    simp [habs]
  · rw [if_neg hi]
    have hne := toBaseCore_ne_nil 10 (i.toNat + 1) i.toNat (by omega)
    rcases hD : toBaseCore 10 (i.toNat + 1) i.toNat with _ | ⟨c, t⟩
    · exact absurd hD hne
    · obtain ⟨d, hd, rfl⟩ :=
        toBaseCore_mem 10 (by omega) (i.toNat + 1) i.toNat c (by rw [hD]; simp)
      have hsign := digitChar_not_sign d (by omega)
      have hdec : digitsVal decDigitVal 10 (toDec i.toNat) = some i.toNat := toDec_val _
      unfold toDec at hdec ⊢
      rw [hD] at hdec ⊢
      simp only [parseI32]
      rw [if_neg hsign.1, if_neg hsign.2.1, hdec]
      have hr : i.toNat ≤ 2 ^ 31 - 1 := by omega
      simp only [Option.some_bind, if_pos hr]
      have h0 : (0 : Int) ≤ i := by omega
      simp [Int.toNat_of_nonneg h0]

theorem parseHex_toHex (h : Nat) (hr : h < 2 ^ 32) :
    parseHexU32 (toHexChars h) = .ok h := by
  have hne := toBaseCore_ne_nil 16 (h + 1) h (by omega)
  rcases hD : toBaseCore 16 (h + 1) h with _ | ⟨c, t⟩
  · exact absurd hD hne
  · obtain ⟨d, hd, rfl⟩ :=
      toBaseCore_mem 16 (by omega) (h + 1) h c (by rw [hD]; simp)
    have hsign := digitChar_not_sign d hd
    have hdec : digitsVal hexDigitVal 16 (toHexChars h) = some h := toHex_val _
    unfold toHexChars at hdec ⊢
    rw [hD] at hdec ⊢
    simp only [parseHexU32]
    rw [if_neg hsign.1, hdec]
    simp only []
    rw [if_pos hr]

theorem parseI32_range (cs : List Char) (i : Int) (h : parseI32 cs = some i) :
    -(2 ^ 31) ≤ i ∧ i ≤ 2 ^ 31 - 1 := by
  rcases cs with _ | ⟨c, rest⟩
  · simp [parseI32] at h
  · simp only [parseI32] at h
    by_cases h1 : c = '+'
    · rw [if_pos h1] at h
      rcases hdv : digitsVal decDigitVal 10 rest with _ | n <;> rw [hdv] at h <;>
        simp at h
      rcases h with ⟨hb, rfl⟩
      omega
    · rw [if_neg h1] at h
      by_cases h2 : c = '-'
      · rw [if_pos h2] at h
        rcases hdv : digitsVal decDigitVal 10 rest with _ | n <;> rw [hdv] at h <;>
          simp at h
        rcases h with ⟨hb, rfl⟩
        omega
      · rw [if_neg h2] at h
        rcases hdv : digitsVal decDigitVal 10 (c :: rest) with _ | n <;> rw [hdv] at h <;>
          simp at h
        rcases h with ⟨hb, rfl⟩
        omega

theorem parseHex_range (cs : List Char) (h : Nat) (hp : parseHexU32 cs = .ok h) :
    h < 2 ^ 32 := by
  rcases cs with _ | ⟨c, rest⟩
  · simp [parseHexU32, digitsVal] at hp
  · simp only [parseHexU32] at hp
    rcases hdv : digitsVal hexDigitVal 16 (if c = '+' then rest else c :: rest) with _ | n <;>
      rw [hdv] at hp
    · simp at hp
    · change (if n < 2 ^ 32 then (Except.ok n : Except ParseErr Nat)
        else .error .BadHexLiteral) = .ok h at hp
      by_cases hn : n < 2 ^ 32
      · rw [if_pos hn] at hp
        cases hp
        exact hn
      · rw [if_neg hn] at hp
        simp at hp

theorem wordBreak_breakAlways (a c : Char) (h : breakAlways c = true) :
    wordBreak a c = true := by
  by_cases hw : isWhite c
  · simp [wordBreak, hw]
  · simp only [breakAlways, Bool.or_eq_true, decide_eq_true_eq] at h
    rcases h with ((h | h) | h) | h
    · exact absurd h hw
    all_goals simp [wordBreak, hw, h]

theorem wordBreak_plain (a b : Char) (ha : plainChar a = true) (hb : plainChar b = true) :
    wordBreak a b = false := by
  simp only [plainChar, Bool.and_eq_true, Bool.not_eq_true', decide_eq_true_eq] at ha hb
  obtain ⟨⟨⟨⟨ha1, ha2⟩, ha3⟩, ha4⟩, ha5⟩ := ha
  obtain ⟨⟨⟨⟨hb1, hb2⟩, hb3⟩, hb4⟩, hb5⟩ := hb
  simp [wordBreak, hb1, hb2, hb3, hb4, ha5, hb5]

theorem noBreakRun_of_plain : ∀ l : List Char, (∀ c ∈ l, plainChar c = true) →
    noBreakRun l = true
| [], _ => rfl
| [_], _ => rfl
| a :: b :: rest, h => by
    simp only [noBreakRun]
    rw [wordBreak_plain a b (h a (by simp)) (h b (by simp)),
      noBreakRun_of_plain (b :: rest) (fun c hc => h c (by simp at hc ⊢; tauto))]
    rfl

theorem scanWord_complete : ∀ (t : List Char) (prev : Char) (rest : List Char),
    noBreakRun (prev :: t) = true → boundaryB rest = true →
    scanWord prev (t ++ rest) = (t, rest) := by
  intro t
  induction t with
  | nil =>
    intro prev rest _ hb
    rcases rest with _ | ⟨c, r⟩
    · rfl
    · simp only [List.nil_append, scanWord]
      rw [if_pos (wordBreak_breakAlways prev c (by simpa [boundaryB] using hb))]
  | cons x t' ih =>
    intro prev rest h hb
    simp only [noBreakRun, Bool.and_eq_true, Bool.not_eq_true'] at h
    obtain ⟨h1, h2⟩ := h
    simp only [List.cons_append, scanWord]
    rw [if_neg (by simp [h1])]
    simp [ih x rest h2 hb]

theorem scanStr_complete : ∀ (s rest : List Char), (∀ c ∈ s, c ≠ '"') →
    scanStr (s ++ '"' :: rest) = some (s, rest) := by
  intro s
  induction s with
  | nil => intro rest _; simp [scanStr]
  | cons c cs ih =>
    intro rest h
    simp only [List.cons_append, scanStr]
    rw [if_neg (h c (by simp))]
    simp only [List.append_eq]
    rw [ih rest (fun c' hc' => h c' (by simp [hc']))]

theorem scanStr_no_quote : ∀ (cs s r : List Char), scanStr cs = some (s, r) →
    ∀ c ∈ s, c ≠ '"' := by
  intro cs
  induction cs with
  | nil => intro s r h; simp [scanStr] at h
  | cons c rest ih =>
    intro s r h
    simp only [scanStr] at h
    by_cases hc : c = '"'
    · rw [if_pos hc] at h
      cases h
      simp
    · rw [if_neg hc] at h
      rcases hrec : scanStr rest with _ | ⟨⟨s', r'⟩⟩ <;> rw [hrec] at h
      · simp at h
      · rw [Option.some.injEq, Prod.mk.injEq] at h
        obtain ⟨hs, hr⟩ := h
        intro x hx
        rw [← hs] at hx
        rcases List.mem_cons.mp hx with rfl | hx'
        · exact hc
        · exact ih s' r' hrec x hx'

theorem scanStr_length : ∀ (cs s r : List Char), scanStr cs = some (s, r) →
    r.length ≤ cs.length := by
  intro cs
  induction cs with
  | nil => intro s r h; simp [scanStr] at h
  | cons c rest ih =>
    intro s r h
    simp only [scanStr] at h
    by_cases hc : c = '"'
    · rw [if_pos hc] at h
      cases h
      simp
    · rw [if_neg hc] at h
      rcases hrec : scanStr rest with _ | ⟨⟨s', r'⟩⟩ <;> rw [hrec] at h
      · simp at h
      · rw [Option.some.injEq, Prod.mk.injEq] at h
        obtain ⟨hs, hr⟩ := h
        have hlen := ih s' r' hrec
        rw [hr] at hlen
        simp
        omega

theorem scanWord_length : ∀ (cs : List Char) (prev : Char),
    (scanWord prev cs).2.length ≤ cs.length := by
  intro cs
  induction cs with
  | nil => intro prev; simp [scanWord]
  | cons c rest ih =>
    intro prev
    simp only [scanWord]
    by_cases hb : wordBreak prev c
    · rw [if_pos hb]
    · rw [if_neg hb]
      have := ih c
      rcases hsw : scanWord c rest with ⟨w, r⟩
      rw [hsw] at this
      simp at this ⊢
      omega

theorem scanWord_noBreak : ∀ (cs : List Char) (prev : Char),
    noBreakRun (prev :: (scanWord prev cs).1) = true := by
  intro cs
  induction cs with
  | nil => intro prev; rfl
  | cons c rest ih =>
    intro prev
    simp only [scanWord]
    by_cases hb : wordBreak prev c
    · rw [if_pos hb]
      rfl
    · rw [if_neg hb]
      have := ih c
      rcases hsw : scanWord c rest with ⟨w, r⟩
      rw [hsw] at this
      simp only [noBreakRun, Bool.and_eq_true, Bool.not_eq_true']
      exact ⟨Bool.eq_false_iff.mpr hb, this⟩

theorem dropComment_length : ∀ cs : List Char, (dropComment cs).length ≤ cs.length := by
  intro cs
  induction cs with
  | nil => simp [dropComment]
  | cons c rest ih =>
    simp only [dropComment]
    by_cases hc : c = '\n'
    · rw [if_pos hc]
      simp
    · rw [if_neg hc]
      simp
      omega

theorem processF_nil : ∀ (f : Nat) (st : PStack), processF f [] st = finish st := by
  intro f st
  cases f <;> rfl

theorem processF_fuel : ∀ (n f g : Nat) (cs : List Char) (st : PStack),
    cs.length ≤ n → cs.length ≤ f → cs.length ≤ g →
    processF f cs st = processF g cs st := by
  intro n
  induction n with
  | zero =>
    intro f g cs st hn _ _
    have hcs : cs = [] := List.length_eq_zero.mp (by omega)
    subst hcs
    rw [processF_nil, processF_nil]
  | succ n ih =>
    intro f g cs st hn hf hg
    rcases cs with _ | ⟨c, rest⟩
    · rw [processF_nil, processF_nil]
    · simp only [List.length_cons] at hn hf hg
      obtain ⟨f', rfl⟩ : ∃ f', f = f' + 1 := ⟨f - 1, by omega⟩
      obtain ⟨g', rfl⟩ : ∃ g', g = g' + 1 := ⟨g - 1, by omega⟩
      simp only [processF]
      by_cases h1 : c = lbrace
      · simp only [if_pos h1]
        exact ih f' g' rest (pushBlock st) (by omega) (by omega) (by omega)
      · simp only [if_neg h1]
        by_cases h2 : c = rbrace
        · simp only [if_pos h2]
          cases hpb : popBlock st with
          | error e => rfl
          | ok st' => exact ih f' g' rest st' (by omega) (by omega) (by omega)
        · simp only [if_neg h2]
          by_cases h3 : c = '"'
          · simp only [if_pos h3]
            cases hss : scanStr rest with
            | none => rfl
            | some pr =>
              obtain ⟨s, r⟩ := pr
              have hr := scanStr_length rest s r hss
              simp only []
              cases hem : emit (.Str (String.mk s)) st with
              | error e => rfl
              | ok st' => exact ih f' g' r st' (by omega) (by omega) (by omega)
          · simp only [if_neg h3]
            by_cases h4 : c = ';' ∨ c = '\n'
            · have h4' : (c = ';' || c = '\n') = true := by
                rcases h4 with h | h <;> simp [h]
              simp only [if_pos h4']
              cases hnl : newline st with
              | error e => rfl
              | ok st' => exact ih f' g' rest st' (by omega) (by omega) (by omega)
            · have h4' : ¬((c = ';' || c = '\n') = true) := by
                simp only [Bool.or_eq_true, decide_eq_true_eq]
                tauto
              simp only [if_neg h4']
              by_cases h5 : isWhite c
              · simp only [if_pos h5]
                exact ih f' g' rest st (by omega) (by omega) (by omega)
              · simp only [if_neg h5]
                rcases hsw : scanWord c rest with ⟨w, r⟩
                have hrlen : r.length ≤ rest.length := by
                  have := scanWord_length rest c
                  rw [hsw] at this
                  exact this
                simp only []
                by_cases h6 : c :: w = ['#'] ∨ (c :: w).take 2 = ['#', '!']
                · have h6' : (c :: w = ['#'] || (c :: w).take 2 = ['#', '!']) = true := by
                    rcases h6 with h | h <;> simp [h]
                  simp only [if_pos h6']
                  have := dropComment_length r
                  exact ih f' g' (dropComment r) st (by omega) (by omega) (by omega)
                · have h6' : ¬((c :: w = ['#'] || (c :: w).take 2 = ['#', '!']) = true) := by
                    simp only [Bool.or_eq_true, decide_eq_true_eq]
                    tauto
                  simp only [if_neg h6']
                  by_cases h7 : c = '#'
                  · simp only [if_pos h7]
                    cases hph : parseHexU32 w with
                    | error e => rfl
                    | ok hx =>
                      simp only []
                      cases hem : emit (.Hex hx) st with
                      | error e => rfl
                      | ok st' => exact ih f' g' r st' (by omega) (by omega) (by omega)
                  · simp only [if_neg h7]
                    cases hpi : parseI32 (c :: w) with
                    | some i =>
                      simp only []
                      cases hem : emit (.Int i) st with
                      | error e => rfl
                      | ok st' => exact ih f' g' r st' (by omega) (by omega) (by omega)
                    | none =>
                      simp only []
                      cases hem : emit (.Atom (String.mk (c :: w))) st with
                      | error e => rfl
                      | ok st' => exact ih f' g' r st' (by omega) (by omega) (by omega)

theorem wfWords_append (a b : List Word) :
    wfWords (a ++ b) = (wfWords a && wfWords b) := by
  induction a with
  | nil => simp [wfWords]
  | cons w ws ih => simp [wfWords, ih, Bool.and_assoc]

theorem wfWords_flattenBlock (cur : Line) (prev : List Line)
    (hc : wfWords cur = true) (hp : wfLines prev = true) :
    wfWords (flattenBlock (cur, prev)) = true := by
  unfold flattenBlock
  induction prev generalizing cur with
  | nil => simpa [wfWords_append, wfWords] using hc
  | cons l ls ih =>
    simp only [wfLines, Bool.and_eq_true] at hp
    simp only [List.flatten_cons]
    rw [show cur ++ (l ++ ls.flatten) = (cur ++ l) ++ ls.flatten by simp]
    exact ih (cur ++ l) (by simp [wfWords_append, hc, hp.1]) hp.2

theorem emit_wf (w : Word) (st st' : PStack) (hw : wfWord w = true)
    (hst : wfStack st = true) (h : emit w st = .ok st') : wfStack st' = true := by
  rcases st with _ | ⟨⟨cur, prev⟩, bs⟩
  · simp [emit] at h
  · simp only [emit, Except.ok.injEq] at h
    subst h
    simp only [wfStack, Bool.and_eq_true] at hst ⊢
    exact ⟨⟨by simp [wfWords_append, hst.1.1, wfWords, hw], hst.1.2⟩, hst.2⟩

theorem newline_wf (st st' : PStack) (hst : wfStack st = true)
    (h : newline st = .ok st') : wfStack st' = true := by
  rcases st with _ | ⟨⟨cur, prev⟩, bs⟩
  · simp [newline] at h
  · simp only [newline, Except.ok.injEq] at h
    subst h
    simp only [wfStack, Bool.and_eq_true, wfLines, wfWords] at hst ⊢
    tauto

theorem pushBlock_wf (st : PStack) (hst : wfStack st = true) :
    wfStack (pushBlock st) = true := by
  simpa [pushBlock, wfStack, wfWords, wfLines] using hst

theorem popBlock_wf (st st' : PStack) (hst : wfStack st = true)
    (h : popBlock st = .ok st') : wfStack st' = true := by
  rcases st with _ | ⟨⟨cur, prev⟩, bs⟩
  · simp [popBlock] at h
  · simp only [popBlock] at h
    simp only [wfStack, Bool.and_eq_true] at hst
    exact emit_wf _ bs st'
      (by simpa [wfWord] using wfWords_flattenBlock cur prev hst.1.1 hst.1.2)
      hst.2 h

theorem finish_wf (st : PStack) (ws : List Word) (hst : wfStack st = true)
    (h : finish st = .ok ws) : wfWords ws = true := by
  rcases st with _ | ⟨⟨cur, prev⟩, bs⟩
  · simp [finish] at h
  · simp only [finish] at h
    by_cases hb : bs.isEmpty
    · rw [if_pos hb] at h
      cases h
      simp only [wfStack, Bool.and_eq_true] at hst
      exact wfWords_flattenBlock cur prev hst.1.1 hst.1.2
    · rw [if_neg hb] at h
      cases h

theorem processF_wf : ∀ (f : Nat) (cs : List Char) (st : PStack) (ws : List Word),
    wfStack st = true → processF f cs st = .ok ws → wfWords ws = true := by
  intro f
  induction f with
  | zero =>
    intro cs st ws hst h
    rcases cs with _ | ⟨c, rest⟩
    · exact finish_wf st ws hst (by rw [← processF_nil 0 st]; exact h)
    · cases h
  | succ f ih =>
    intro cs st ws hst h
    rcases cs with _ | ⟨c, rest⟩
    · exact finish_wf st ws hst (by rw [← processF_nil (f + 1) st]; exact h)
    · simp only [processF] at h
      by_cases h1 : c = lbrace
      · rw [if_pos h1] at h
        exact ih rest (pushBlock st) ws (pushBlock_wf st hst) h
      · rw [if_neg h1] at h
        by_cases h2 : c = rbrace
        · rw [if_pos h2] at h
          cases hpb : popBlock st with
          | error e => rw [hpb] at h; cases h
          | ok st' =>
            rw [hpb] at h
            exact ih rest st' ws (popBlock_wf st st' hst hpb) h
        · rw [if_neg h2] at h
          by_cases h3 : c = '"'
          · rw [if_pos h3] at h
            cases hss : scanStr rest with
            | none => rw [hss] at h; cases h
            | some pr =>
              obtain ⟨s, r⟩ := pr
              rw [hss] at h
              simp only [] at h
              cases hem : emit (.Str (String.mk s)) st with
              | error e => rw [hem] at h; cases h
              | ok st' =>
                rw [hem] at h
                refine ih r st' ws (emit_wf _ st st' ?_ hst hem) h
                simp only [wfWord, List.all_eq_true, decide_eq_true_eq]
                exact scanStr_no_quote rest s r hss
          · rw [if_neg h3] at h
            by_cases h4 : (c = ';' || c = '\n') = true
            · rw [if_pos h4] at h
              cases hnl : newline st with
              | error e => rw [hnl] at h; cases h
              | ok st' =>
                rw [hnl] at h
                exact ih rest st' ws (newline_wf st st' hst hnl) h
            · rw [if_neg h4] at h
              by_cases h5 : isWhite c
              · rw [if_pos h5] at h
                exact ih rest st ws hst h
              · rw [if_neg h5] at h
                rcases hsw : scanWord c rest with ⟨w, r⟩
                rw [hsw] at h
                simp only [] at h
                by_cases h6 : (c :: w = ['#'] || (c :: w).take 2 = ['#', '!']) = true
                · rw [if_pos h6] at h
                  exact ih (dropComment r) st ws hst h
                · rw [if_neg h6] at h
                  by_cases h7 : c = '#'
                  · rw [if_pos h7] at h
                    cases hph : parseHexU32 w with
                    | error e => rw [hph] at h; cases h
                    | ok hx =>
                      rw [hph] at h
                      simp only [] at h
                      cases hem : emit (.Hex hx) st with
                      | error e => rw [hem] at h; cases h
                      | ok st' =>
                        rw [hem] at h
                        refine ih r st' ws (emit_wf _ st st' ?_ hst hem) h
                        simp only [wfWord, decide_eq_true_eq]
                        exact parseHex_range w hx hph
                  · rw [if_neg h7] at h
                    cases hpi : parseI32 (c :: w) with
                    | some i =>
                      rw [hpi] at h
                      simp only [] at h
                      cases hem : emit (.Int i) st with
                      | error e => rw [hem] at h; cases h
                      | ok st' =>
                        rw [hem] at h
                        refine ih r st' ws (emit_wf _ st st' ?_ hst hem) h
                        have := parseI32_range (c :: w) i hpi
                        simp only [wfWord, Bool.and_eq_true, decide_eq_true_eq]
                        omega
                    | none =>
                      rw [hpi] at h
                      simp only [] at h
                      cases hem : emit (.Atom (String.mk (c :: w))) st with
                      | error e => rw [hem] at h; cases h
                      | ok st' =>
                        rw [hem] at h
                        refine ih r st' ws (emit_wf _ st st' ?_ hst hem) h
                        have hnb := scanWord_noBreak rest c
                        rw [hsw] at hnb
                        simp only [wfWord, wfAtom, Bool.and_eq_true]
                        refine ⟨⟨?_, hnb⟩, by simp [hpi]⟩
                        simp only [atomFirstOk, Bool.and_eq_true, Bool.not_eq_true',
                          decide_eq_true_eq]
                        refine ⟨⟨⟨⟨⟨?_, h1⟩, h2⟩, h3⟩, ?_⟩, h7⟩
                        · exact Bool.eq_false_iff.mpr h5
                        · intro hcs
                          exact h4 (by simp [hcs])

theorem parse_wf (P : String) (ws : List Word) (h : parse P = .ok ws) :
    wfWords ws = true := by
  exact processF_wf P.data.length P.data (pushBlock []) ws rfl h

theorem ne_nl_of_not_white (c : Char) (h : isWhite c = false) : c ≠ '\n' := by
  intro hc
  subst hc
  simp [isWhite] at h

theorem processF_scan (f : Nat) (c : Char) (cs : List Char) (st : PStack)
    (h1 : isWhite c = false) (h2 : c ≠ lbrace) (h3 : c ≠ rbrace) (h4 : c ≠ '"')
    (h5 : c ≠ ';') :
    processF (f + 1) (c :: cs) st =
      (let (w, r) := scanWord c cs
       let word := c :: w
       if word = ['#'] || word.take 2 = ['#', '!'] then processF f (dropComment r) st
       else if c = '#' then
         match parseHexU32 w with
         | .error e => .error e
         | .ok h =>
           match emit (.Hex h) st with
           | .error e => .error e
           | .ok st' => processF f r st'
       else
         match parseI32 word with
         | some i =>
           match emit (.Int i) st with
           | .error e => .error e
           | .ok st' => processF f r st'
         | none =>
           match emit (.Atom (String.mk word)) st with
           | .error e => .error e
           | .ok st' => processF f r st') := by
  have h6 : c ≠ '\n' := ne_nl_of_not_white c h1
  simp only [processF]
  rw [if_neg h2, if_neg h3, if_neg h4,
    if_neg (by simp only [Bool.or_eq_true, decide_eq_true_eq]; tauto),
    if_neg (by simp [h1])]

theorem processF_white (f : Nat) (c : Char) (cs : List Char) (st : PStack)
    (h1 : isWhite c = true) (h2 : c ≠ lbrace) (h3 : c ≠ rbrace) (h4 : c ≠ '"')
    (h5 : c ≠ ';') (h6 : c ≠ '\n') :
    processF (f + 1) (c :: cs) st = processF f cs st := by
  simp only [processF]
  rw [if_neg h2, if_neg h3, if_neg h4,
    if_neg (by simp only [Bool.or_eq_true, decide_eq_true_eq]; tauto),
    if_pos h1]

theorem plain_split (c : Char) (h : plainChar c = true) :
    isWhite c = false ∧ c ≠ lbrace ∧ c ≠ ';' ∧ c ≠ rbrace ∧ c ≠ '=' := by
  simp only [plainChar, Bool.and_eq_true, Bool.not_eq_true', decide_eq_true_eq] at h
  tauto

theorem intRepr_chars (i : Int) :
    ∀ ch ∈ intRepr i, plainChar ch = true ∧ ch ≠ '"' ∧ ch ≠ '#' := by
  intro ch hch
  unfold intRepr at hch
  have digitFacts : ∀ (m : Nat) (f : Nat), ch ∈ toBaseCore 10 f m →
      plainChar ch = true ∧ ch ≠ '"' ∧ ch ≠ '#' := by
    intro m f hm
    obtain ⟨d, hd, rfl⟩ := toBaseCore_mem 10 (by omega) f m ch hm
    have h16 : d < 16 := by omega
    exact ⟨plainChar_digitChar d h16, (digitChar_not_sign d h16).2.2.2.2.1,
      (digitChar_not_sign d h16).2.2.1⟩
  by_cases hi : i < 0
  · rw [if_pos hi] at hch
    rcases List.mem_cons.mp hch with rfl | hch'
    · refine ⟨by decide, by decide, by decide⟩
    · exact digitFacts _ _ hch'
  · rw [if_neg hi] at hch
    exact digitFacts _ _ hch

theorem intRepr_ne_nil (i : Int) : intRepr i ≠ [] := by
  unfold intRepr
  by_cases hi : i < 0
  · rw [if_pos hi]
    simp
  · rw [if_neg hi]
    exact toBaseCore_ne_nil 10 _ _ (by omega)

theorem toHexChars_chars (h : Nat) :
    ∀ ch ∈ toHexChars h, plainChar ch = true ∧ ch ≠ '"' ∧ ch ≠ '#' ∧ ch ≠ '!' := by
  intro ch hm
  obtain ⟨d, hd, rfl⟩ := toBaseCore_mem 16 (by omega) _ _ ch hm
  exact ⟨plainChar_digitChar d hd, (digitChar_not_sign d hd).2.2.2.2.1,
    (digitChar_not_sign d hd).2.2.1, (digitChar_not_sign d hd).2.2.2.1⟩

theorem processF_atomTok (a : String) (rest : List Char) (b : Block) (bs : PStack)
    (f g : Nat) (hw : wfAtom a.data = true) (hb : boundaryB rest = true)
    (hf : (a.data ++ rest).length ≤ f) (hg : rest.length ≤ g) :
    processF f (a.data ++ rest) (b :: bs) = processF g rest (emitB (.Atom a) b :: bs) := by
  obtain ⟨l⟩ := a
  have hdat : (String.mk l).data = l := rfl
  rw [hdat] at hw hf ⊢
  rcases l with _ | ⟨c, t⟩
  · simp [wfAtom] at hw
  · simp only [wfAtom, Bool.and_eq_true] at hw
    obtain ⟨⟨hA, hB⟩, hC⟩ := hw
    have hC' : parseI32 (c :: t) = none := by simpa using hC
    simp only [atomFirstOk, Bool.and_eq_true, Bool.not_eq_true', decide_eq_true_eq] at hA
    obtain ⟨⟨⟨⟨⟨hA1, hA2⟩, hA3⟩, hA4⟩, hA5⟩, hA6⟩ := hA
    obtain ⟨f₁, rfl⟩ : ∃ f₁, f = f₁ + 1 := ⟨f - 1, by simp at hf; omega⟩
    rw [List.cons_append, processF_scan f₁ c (t ++ rest) (b :: bs) hA1 hA2 hA3 hA4 hA5,
      scanWord_complete t c rest hB hb]
    simp only []
    have hcomment : ¬((c :: t = ['#'] || (c :: t).take 2 = ['#', '!']) = true) := by
      simp only [Bool.or_eq_true, decide_eq_true_eq]
      rintro (hx | hx)
      · injection hx with hx1 _
        exact hA6 hx1
      · rw [List.take_succ_cons] at hx
        injection hx with hx1 _
        exact hA6 hx1
    rw [if_neg hcomment, if_neg hA6, hC']
    obtain ⟨cur, prev⟩ := b
    simp only [emit, emitB]
    exact processF_fuel (t ++ rest).length f₁ g rest _ (by simp <;> omega)
      (by simp at hf; omega) hg

theorem processF_intTok (i : Int) (rest : List Char) (b : Block) (bs : PStack)
    (f g : Nat) (h1 : -(2 ^ 31) ≤ i) (h2 : i ≤ 2 ^ 31 - 1) (hb : boundaryB rest = true)
    (hf : (intRepr i ++ rest).length ≤ f) (hg : rest.length ≤ g) :
    processF f (intRepr i ++ rest) (b :: bs) = processF g rest (emitB (.Int i) b :: bs) := by
  have hpi := parseI32_intRepr i h1 h2
  have hchars := intRepr_chars i
  have hnb : noBreakRun (intRepr i) = true :=
    noBreakRun_of_plain _ (fun c hc => (hchars c hc).1)
  rcases hI : intRepr i with _ | ⟨c, t⟩
  · exact absurd hI (intRepr_ne_nil i)
  · rw [hI] at hpi hchars hnb hf
    have hc := hchars c (by simp)
    obtain ⟨hP1, hP2, hP3⟩ := hc
    obtain ⟨hQ1, hQ2, hQ3, hQ4, hQ5⟩ := plain_split c hP1
    obtain ⟨f₁, rfl⟩ : ∃ f₁, f = f₁ + 1 := ⟨f - 1, by simp at hf; omega⟩
    rw [List.cons_append, processF_scan f₁ c (t ++ rest) (b :: bs) hQ1 hQ2 hQ4 hP2 hQ3,
      scanWord_complete t c rest hnb hb]
    simp only []
    have hcomment : ¬((c :: t = ['#'] || (c :: t).take 2 = ['#', '!']) = true) := by
      simp only [Bool.or_eq_true, decide_eq_true_eq]
      rintro (hx | hx)
      · injection hx with hx1 _
        exact hP3 hx1
      · rw [List.take_succ_cons] at hx
        injection hx with hx1 _
        exact hP3 hx1
    rw [if_neg hcomment, if_neg hP3, hpi]
    obtain ⟨cur, prev⟩ := b
    simp only [emit, emitB]
    exact processF_fuel (t ++ rest).length f₁ g rest _ (by simp <;> omega)
      (by simp at hf; omega) hg

theorem processF_hexTok (h : Nat) (rest : List Char) (b : Block) (bs : PStack)
    (f g : Nat) (hr : h < 2 ^ 32) (hb : boundaryB rest = true)
    (hf : (('#' :: toHexChars h) ++ rest).length ≤ f) (hg : rest.length ≤ g) :
    processF f (('#' :: toHexChars h) ++ rest) (b :: bs) =
      processF g rest (emitB (.Hex h) b :: bs) := by
  have hph := parseHex_toHex h hr
  have hchars := toHexChars_chars h
  have hnb : noBreakRun ('#' :: toHexChars h) = true := by
    refine noBreakRun_of_plain _ ?_
    intro c hc
    rcases List.mem_cons.mp hc with rfl | hc'
    · decide
    · exact (hchars c hc').1
  rcases hH : toHexChars h with _ | ⟨hd, t⟩
  · exact absurd hH (toBaseCore_ne_nil 16 _ _ (by omega))
  · have hhd := hchars hd (by rw [hH]; simp)
    rw [hH] at hph hnb hf
    obtain ⟨f₁, rfl⟩ : ∃ f₁, f = f₁ + 1 := ⟨f - 1, by simp at hf; omega⟩
    rw [List.cons_append, processF_scan f₁ '#' ((hd :: t) ++ rest) (b :: bs)
      (by decide) (by decide) (by decide) (by decide) (by decide),
      scanWord_complete (hd :: t) '#' rest hnb hb]
    simp only []
    have hcomment : ¬(('#' :: hd :: t = ['#'] || ('#' :: hd :: t).take 2 = ['#', '!']) = true) := by
      simp only [Bool.or_eq_true, decide_eq_true_eq]
      rintro (hx | hx)
      · injection hx with _ hx2
        cases hx2
      · rw [List.take_succ_cons, List.take_succ_cons] at hx
        injection hx with _ hx2
        injection hx2 with hx3 _
        exact hhd.2.2.2 hx3
    rw [if_neg hcomment, if_pos trivial, hph]
    obtain ⟨cur, prev⟩ := b
    simp only [emit, emitB]
    exact processF_fuel ((hd :: t) ++ rest).length f₁ g rest _ (by simp <;> omega)
      (by simp at hf; omega) hg

theorem processF_strTok (s : String) (rest : List Char) (b : Block) (bs : PStack)
    (f g : Nat) (hq : ∀ c ∈ s.data, c ≠ '"')
    (hf : (('"' :: s.data ++ ['"']) ++ rest).length ≤ f) (hg : rest.length ≤ g) :
    processF f (('"' :: s.data ++ ['"']) ++ rest) (b :: bs) =
      processF g rest (emitB (.Str s) b :: bs) := by
  obtain ⟨f₁, rfl⟩ : ∃ f₁, f = f₁ + 1 := ⟨f - 1, by simp at hf; omega⟩
  have hshape : ('"' :: s.data ++ ['"']) ++ rest = '"' :: (s.data ++ ('"' :: rest)) := by
    simp
  rw [hshape]
  simp only [processF]
  simp only [if_true, if_false, reduceIte]
  rw [scanStr_complete s.data rest hq]
  simp only []
  have hmk : String.mk s.data = s := rfl
  rw [hmk]
  obtain ⟨cur, prev⟩ := b
  simp only [emit, emitB]
  exact processF_fuel (s.data ++ ('"' :: rest)).length f₁ g rest _ (by simp <;> omega)
    (by simp at hf; omega) hg

theorem processF_lbrace (f : Nat) (cs : List Char) (st : PStack) :
    processF (f + 1) (lbrace :: cs) st = processF f cs (pushBlock st) := rfl

theorem processF_rbrace (f : Nat) (cs : List Char) (st : PStack) :
    processF (f + 1) (rbrace :: cs) st =
      match popBlock st with
      | .error e => .error e
      | .ok st' => processF f cs st' := rfl

theorem processF_semi (f : Nat) (cs : List Char) (st : PStack) :
    processF (f + 1) (';' :: cs) st =
      match newline st with
      | .error e => .error e
      | .ok st' => processF f cs st' := rfl

theorem processF_space (f : Nat) (cs : List Char) (st : PStack) :
    processF (f + 1) (' ' :: cs) st = processF f cs st := rfl

mutual

theorem processF_display (w : Word) (rest : List Char) (b : Block) (bs : PStack)
    (f g : Nat) (hw : wfWord w = true) (hb : boundaryB rest = true)
    (hf : (displayWord w ++ rest).length ≤ f) (hg : rest.length ≤ g) :
    processF f (displayWord w ++ rest) (b :: bs) = processF g rest (emitB w b :: bs) := by
  cases w with
  | Atom a => exact processF_atomTok a rest b bs f g (by simpa [wfWord] using hw) hb hf hg
  | Int i =>
    simp only [wfWord, Bool.and_eq_true, decide_eq_true_eq] at hw
    exact processF_intTok i rest b bs f g hw.1 hw.2 hb hf hg
  | Hex h =>
    simp only [wfWord, decide_eq_true_eq] at hw
    exact processF_hexTok h rest b bs f g hw hb hf hg
  | Str s =>
    simp only [wfWord, List.all_eq_true, decide_eq_true_eq] at hw
    exact processF_strTok s rest b bs f g hw hf hg
  | Dict d => simp [wfWord] at hw
  | List ws =>
    by_cases hemp : ws.isEmpty = true
    · obtain rfl : ws = [] := List.isEmpty_iff.mp hemp
      obtain ⟨cur, prev⟩ := b
      obtain ⟨f₂, rfl⟩ : ∃ k, f = k + 1 + 1 := ⟨f - 2, by simp [displayWord] at hf; omega⟩
      have hshape : displayWord (.List []) ++ rest = lbrace :: rbrace :: rest := rfl
      rw [hshape, processF_lbrace, processF_rbrace]
      simp only [pushBlock, popBlock, flattenBlock, List.flatten_nil, List.append_nil,
        emit, emitB]
      exact processF_fuel rest.length f₂ g rest _ le_rfl
        (by simp [displayWord] at hf; omega) hg
    · have hne : ws ≠ [] := fun h => hemp (by simp [h])
      obtain ⟨cur, prev⟩ := b
      simp only [wfWord] at hw
      have hshape : displayWord (.List ws) ++ rest =
          lbrace :: ' ' :: (displayWords ws ++ (' ' :: rbrace :: rest)) := by
        simp only [displayWord, if_neg hemp]
        simp
      obtain ⟨f₂, rfl⟩ : ∃ k, f = k + 1 + 1 := by
        refine ⟨f - 2, ?_⟩
        rw [hshape] at hf
        simp at hf
        omega
      rw [hshape, processF_lbrace, processF_space]
      have hlen : (displayWords ws ++ (' ' :: rbrace :: rest)).length ≤ f₂ := by
        rw [hshape] at hf
        simp at hf ⊢
        omega
      simp only [pushBlock]
      rw [processF_displayWords ws (' ' :: rbrace :: rest) ([], []) ((cur, prev) :: bs)
        f₂ (rest.length + 2) hne hw (by show breakAlways ' ' = true; decide) hlen
        (by simp)]
      simp only [List.nil_append]
      rw [show rest.length + 2 = rest.length + 1 + 1 from rfl, processF_space,
        processF_rbrace]
      simp only [popBlock, flattenBlock, List.flatten_nil, List.append_nil, emit, emitB]
      exact processF_fuel rest.length (rest.length + 0) g rest _ (by omega) (by omega) hg

theorem processF_displayWords (ws : List Word) (rest : List Char) (b : Block) (bs : PStack)
    (f g : Nat) (hne : ws ≠ []) (hw : wfWords ws = true) (hb : boundaryB rest = true)
    (hf : (displayWords ws ++ rest).length ≤ f) (hg : rest.length ≤ g) :
    processF f (displayWords ws ++ rest) (b :: bs) =
      processF g rest ((b.1 ++ ws, b.2) :: bs) := by
  cases ws with
  | nil => exact absurd rfl hne
  | cons w ws' =>
    cases ws' with
    | nil =>
      simp only [wfWords, Bool.and_eq_true] at hw
      exact processF_display w rest b bs f g hw.1 hb hf hg
    | cons w' ws'' =>
      simp only [wfWords, Bool.and_eq_true] at hw
      have hshape : displayWords (w :: w' :: ws'') ++ rest =
          displayWord w ++ (' ' :: (displayWords (w' :: ws'') ++ rest)) := by
        simp [displayWords]
      rw [hshape]
      have hlen1 : (' ' :: (displayWords (w' :: ws'') ++ rest)).length =
          (displayWords (w' :: ws'') ++ rest).length + 1 := by simp
      rw [processF_display w (' ' :: (displayWords (w' :: ws'') ++ rest)) b bs f
        ((displayWords (w' :: ws'') ++ rest).length + 1) hw.1
        (by show breakAlways ' ' = true; decide)
        (by rw [hshape] at hf; exact hf) (by omega)]
      rw [processF_space]
      rw [processF_displayWords (w' :: ws'') rest (emitB w b) bs
        (displayWords (w' :: ws'') ++ rest).length g (by simp)
        (by simp only [wfWords, Bool.and_eq_true]; exact hw.2) hb le_rfl hg]
      simp only [emitB]
      rw [show (b.1 ++ [w]) ++ (w' :: ws'') = b.1 ++ (w :: w' :: ws'') by
        rw [List.append_assoc]; rfl]

end

theorem parse_mk_data (l : List Char) : parse (String.mk l) = processF l.length l (pushBlock []) := rfl

theorem parse_displayWords (ws : List Word) (hw : wfWords ws = true) :
    parse (String.mk (displayWords ws)) = .ok ws := by
  rw [parse_mk_data]
  cases ws with
  | nil => rfl
  | cons w ws' =>
    have hb : boundaryB ([] : List Char) = true := rfl
    have h := processF_displayWords (w :: ws') [] ([], []) []
      (displayWords (w :: ws')).length 0 (by simp) hw hb
      (by simp) (by simp)
    rw [List.append_nil] at h
    rw [pushBlock, h]
    simp [processF_nil, finish, flattenBlock]

/-- C7: for every source text accepted by `parse`, rendering each parsed
word with the display formatter, space-separated, and parsing the
rendering again yields the same word sequence. -/
theorem C7_roundtrip (P : String) (ws : List Word) (h : parse P = .ok ws) :
    parse (String.mk (displayWords ws)) = .ok ws :=
  parse_displayWords ws (parse_wf P ws h)

theorem C7_roundtrip_witness :
    parse (String.mk (displayWords
      [.Atom "foo", .List [.Hex 255, .Int 1], .Str "a b"])) =
    .ok [.Atom "foo", .List [.Hex 255, .Int 1], .Str "a b"] :=
  C7_roundtrip "foo \x7b 1 ; #ff \x7d \"a b\""
    [.Atom "foo", .List [.Hex 255, .Int 1], .Str "a b"] rfl

theorem lineFoldFlat_nil_start : ∀ (ls : List (List Word)) (prev : List Line),
    lineFoldFlat ls [] prev = ls.reverse.flatten ++ prev.flatten := by
  intro ls
  induction ls with
  | nil => intro prev; simp [lineFoldFlat]
  | cons l ls' ih =>
    intro prev
    simp only [lineFoldFlat, List.nil_append]
    rw [ih ((l : List Word) :: prev)]
    simp [List.flatten_append]

theorem processF_joinSemis : ∀ (lines : List (List Word)) (cur : Line)
    (prev : List Line) (f : Nat),
    (∀ l ∈ lines, wfWords l = true) → (joinSemis lines).length ≤ f →
    processF f (joinSemis lines) [(cur, prev)] = .ok (lineFoldFlat lines cur prev) := by
  intro lines
  induction lines with
  | nil =>
    intro cur prev f _ _
    rw [show joinSemis [] = [] from rfl, processF_nil]
    simp [finish, flattenBlock, lineFoldFlat]
  | cons l ls ih =>
    intro cur prev f hwf hf
    cases ls with
    | nil =>
      by_cases hl : l = []
      · subst hl
        rw [show joinSemis [[]] = [] from rfl, processF_nil]
        simp [finish, flattenBlock, lineFoldFlat]
      · have hjoin : joinSemis [l] = displayWords l := rfl
        rw [hjoin] at hf ⊢
        have h := processF_displayWords l [] (cur, prev) [] f 0 hl
          (hwf l (by simp)) rfl (by simpa using hf) (by simp)
        rw [List.append_nil] at h
        rw [h, processF_nil]
        simp [finish, flattenBlock, lineFoldFlat]
    | cons l' ls' =>
      have hjoin : joinSemis (l :: l' :: ls') =
          displayWords l ++ ';' :: joinSemis (l' :: ls') := rfl
      rw [hjoin] at hf ⊢
      by_cases hl : l = []
      · subst hl
        rw [show displayWords [] ++ ';' :: joinSemis (l' :: ls') =
          ';' :: joinSemis (l' :: ls') from rfl]
        obtain ⟨f₁, rfl⟩ : ∃ k, f = k + 1 := ⟨f - 1, by simp at hf; omega⟩
        rw [processF_semi]
        simp only [newline]
        rw [ih [] (cur :: prev) f₁ (fun x hx => hwf x (by simp [hx]))
          (by simp at hf; omega)]
        simp [lineFoldFlat]
      · have h := processF_displayWords l (';' :: joinSemis (l' :: ls')) (cur, prev) []
          f ((joinSemis (l' :: ls')).length + 1) hl (hwf l (by simp))
          (by show breakAlways ';' = true; decide) hf (by simp)
        rw [h, processF_semi]
        simp only [newline]
        rw [ih [] ((cur ++ l) :: prev) (joinSemis (l' :: ls')).length
          (fun x hx => hwf x (by simp [hx])) le_rfl]
        simp [lineFoldFlat]

/-- C2: for every source accepted by `parse`, the word sequence of a
block and of the top level lists its `;`/newline-separated lines in
reverse order of appearance — most recently completed first — with the
words inside each line kept in encounter order.  Stated generally for
any `;`-separated sequence of well-formed lines, and concretely on the
examples `foo;bar;baz` ≙ `baz bar foo` at the top level and inside a
block. -/
theorem C2_line_order :
    (∀ lines : List (List Word), (∀ l ∈ lines, wfWords l = true) →
      parse (String.mk (joinSemis lines)) = .ok lines.reverse.flatten) ∧
    parse "foo;bar;baz" = parse "baz bar foo" ∧
    parse "\x7bfoo;bar;baz\x7d" = parse "\x7bbaz bar foo\x7d" := by
  refine ⟨?_,
    (show parse "foo;bar;baz" =
        .ok [.Atom "baz", .Atom "bar", .Atom "foo"] from rfl).trans
      (show parse "baz bar foo" =
        .ok [.Atom "baz", .Atom "bar", .Atom "foo"] from rfl).symm,
    (show parse "\x7bfoo;bar;baz\x7d" =
        .ok [.List [.Atom "baz", .Atom "bar", .Atom "foo"]] from rfl).trans
      (show parse "\x7bbaz bar foo\x7d" =
        .ok [.List [.Atom "baz", .Atom "bar", .Atom "foo"]] from rfl).symm⟩
  intro lines hwf
  rw [parse_mk_data]
  rw [show pushBlock [] = [(([] : Line), ([] : List Line))] from rfl]
  rw [processF_joinSemis lines [] [] _ hwf le_rfl, lineFoldFlat_nil_start]
  simp

theorem C2_line_order_witness :
    parse (String.mk (joinSemis [[.Atom "foo"], [.Atom "bar"], [.Atom "baz"]])) =
      .ok [.Atom "baz", .Atom "bar", .Atom "foo"] := by
  have h := C2_line_order.1 [[.Atom "foo"], [.Atom "bar"], [.Atom "baz"]]
    (by decide)
  exact h.trans rfl

theorem popBack_append : ∀ (l : List Word) (v : Word), popBack (l ++ [v]) = some (l, v) := by
  intro l v
  induction l with
  | nil => rfl
  | cons w ws ih =>
    cases hws : ws ++ [v] with
    | nil => exact absurd hws (by simp)
    | cons a tl =>
      rw [List.cons_append, hws]
      show (match popBack (a :: tl) with
            | some (l, x) => some (w :: l, x)
            | none => none) = some (w :: ws, v)
      rw [← hws, ih]

/-- C9: `pop` and `shift` on an empty list fail `EmptyList` (and nothing
else); `push` of a value onto a list followed by `pop` restores the list
and leaves the same value on top; `len` of the empty list pushes
`Int 0`. -/
theorem C9_list_ops :
    (∀ (d : Dict) (rest code : List Word) (envs : List Env),
      doBuiltin .Pop ⟨d, .List [] :: rest, code, envs⟩ = some (.error .EmptyList)) ∧
    (∀ (d : Dict) (rest code : List Word) (envs : List Env),
      doBuiltin .Shift ⟨d, .List [] :: rest, code, envs⟩ = some (.error .EmptyList)) ∧
    (∀ (d : Dict) (v : Word) (l rest code : List Word) (envs : List Env),
      doBuiltin .Push ⟨d, v :: .List l :: rest, code, envs⟩ =
        some (.ok ⟨d, .List (l ++ [v]) :: rest, code, envs⟩) ∧
      doBuiltin .Pop ⟨d, .List (l ++ [v]) :: rest, code, envs⟩ =
        some (.ok ⟨d, v :: .List l :: rest, code, envs⟩)) ∧
    (∀ (d : Dict) (rest code : List Word) (envs : List Env),
      doBuiltin .Len ⟨d, .List [] :: rest, code, envs⟩ =
        some (.ok ⟨d, .Int 0 :: rest, code, envs⟩)) := by
  refine ⟨fun d rest code envs => rfl, fun d rest code envs => rfl,
    fun d v l rest code envs => ⟨rfl, ?_⟩, fun d rest code envs => rfl⟩
  show some ((Shell.pop ⟨d, .List (l ++ [v]) :: rest, code, envs⟩).bind _) = _
  simp only [Shell.pop, Except.bind]
  show some ((asList (.List (l ++ [v]))).bind _) = _
  simp only [asList, Except.bind]
  rw [popBack_append]
  rfl

theorem asBool_int_ne (n : Int) (h : n ≠ 0) : asBool (.Int n) = .ok true := by
  rcases n with (_ | m) | m
  · exact absurd rfl h
  · rfl
  · rfl

theorem asBool_not_int (w : Word) (h : ∀ n : Int, w ≠ .Int n) :
    asBool w = .error (.WrongType w .Int) := by
  cases w with
  | Int i => exact absurd rfl (h i)
  | Atom a => rfl
  | Hex x => rfl
  | Str s => rfl
  | List l => rfl
  | Dict d => rfl

/-- C10: booleans are integers at the interface — `if` treats `Int 0` as
false and every other `Int` as true, failing `WrongType` on a non-`Int`
test; `==`, `<` and `>` always push exactly `Int 1` or `Int 0`, which is
always a valid `if` test. -/
theorem C10_bool_encoding :
    (asBool (.Int 0) = .ok false) ∧
    (∀ n : Int, n ≠ 0 → asBool (.Int n) = .ok true) ∧
    (∀ w : Word, (∀ n : Int, w ≠ .Int n) → asBool w = .error (.WrongType w .Int)) ∧
    (∀ (d : Dict) (cq alt rest code : List Word) (envs : List Env) (n : Int),
      doBuiltin .If ⟨d, .Int n :: .List cq :: .List alt :: rest, code, envs⟩ =
        some (.ok ⟨d, rest, (if n = 0 then alt else cq).reverse ++ code, envs⟩)) ∧
    (∀ (d : Dict) (t : Word) (rest code : List Word) (envs : List Env),
      (∀ n : Int, t ≠ .Int n) →
      doBuiltin .If ⟨d, t :: rest, code, envs⟩ = some (.error (.WrongType t .Int))) ∧
    (∀ a b : Word, fromBool (wordEq a b) = .Int 1 ∨ fromBool (wordEq a b) = .Int 0) ∧
    (∀ (d : Dict) (a b : Word) (rest code : List Word) (envs : List Env),
      doBuiltin .OpEql ⟨d, a :: b :: rest, code, envs⟩ =
        some (.ok ⟨d, fromBool (wordEq a b) :: rest, code, envs⟩)) ∧
    (∀ (d : Dict) (x y : Int) (rest code : List Word) (envs : List Env),
      doBuiltin .OpLt ⟨d, .Int x :: .Int y :: rest, code, envs⟩ =
        some (.ok ⟨d, fromBool (decide (x < y)) :: rest, code, envs⟩) ∧
      doBuiltin .OpGt ⟨d, .Int x :: .Int y :: rest, code, envs⟩ =
        some (.ok ⟨d, fromBool (decide (x > y)) :: rest, code, envs⟩)) ∧
    (∀ b : Bool, asBool (fromBool b) = .ok b) := by
  refine ⟨rfl, asBool_int_ne, asBool_not_int, ?_, ?_, ?_, ?_, ?_, ?_⟩
  · intro d cq alt rest code envs n
    rcases n with (_ | m) | m <;> rfl
  · intro d t rest code envs h
    cases t with
    | Int i => exact absurd rfl (h i)
    | Atom a => rfl
    | Hex x => rfl
    | Str s => rfl
    | List l => rfl
    | Dict dd => rfl
  · intro a b
    cases wordEq a b <;> simp [fromBool]
  · intro d a b rest code envs
    rfl
  · intro d x y rest code envs
    exact ⟨rfl, rfl⟩
  · intro b
    cases b <;> rfl

theorem C10_bool_encoding_witness :
    asBool (.Int 7) = .ok true ∧
    asBool (.Str "x") = .error (.WrongType (.Str "x") .Int) ∧
    doBuiltin .If ⟨defaultBindings, [.Int 7, .List [.Int 1], .List [.Int 2]], [], []⟩ =
      some (.ok ⟨defaultBindings, [],
        (if (7 : Int) = 0 then [.Int 2] else [.Int 1]).reverse ++ [], []⟩) ∧
    doBuiltin .If ⟨defaultBindings, [.Str "x"], [], []⟩ =
      some (.error (.WrongType (.Str "x") .Int)) :=
  ⟨C10_bool_encoding.2.1 7 (by decide),
   C10_bool_encoding.2.2.1 (.Str "x") (fun n => fun h => nomatch h),
   C10_bool_encoding.2.2.2.1 defaultBindings [.Int 1] [.Int 2] [] [] [] 7,
   C10_bool_encoding.2.2.2.2.1 defaultBindings (.Str "x") [] [] []
     (fun n => fun h => nomatch h)⟩

/-- C6 counterexample: `==` on two non-`Int` operands succeeds (pushing
`Int 0`) instead of failing `WrongType`, and `+` on a non-`Int` operand
fails `CantCoerce`, not `WrongType`. -/
theorem C6_counterexample :
    doBuiltin .OpEql ⟨defaultBindings, [.Str "a", .Str "b"], [], []⟩ =
      some (.ok ⟨defaultBindings, [.Int 0], [], []⟩) ∧
    doBuiltin .OpAdd ⟨defaultBindings, [.Str "a", .Int 1], [], []⟩ =
      some (.error (.CantCoerce (.Str "a") .Int)) ∧
    (EvalErr.CantCoerce (.Str "a") .Int ≠ EvalErr.WrongType (.Str "a") .Int) :=
  ⟨rfl, rfl, fun h => nomatch h⟩

theorem intBinop_coerce_err (op : Int → Int → Except EvalErr Word) (d : Dict)
    (w : Word) (rest code : List Word) (envs : List Env) (e : EvalErr)
    (h : intoInt w = .error e) :
    intBinop op ⟨d, w :: rest, code, envs⟩ = .error e := by
  have key : intBinop op ⟨d, w :: rest, code, envs⟩ =
      (intoInt w).bind (fun lhs =>
        (Shell.pop ⟨d, rest, code, envs⟩).bind (fun pr =>
          (intoInt pr.1).bind (fun rhs =>
            (op lhs rhs).bind (fun wd => .ok (Shell.push wd pr.2))))) := rfl
  rw [key, h]
  rfl

/-- C6 amended: `+ - * / < >` coerce each operand with `into_int` (an
`Int`, or a `Hex` up to `i32::MAX`) and fail `CantCoerce` naming the
operand otherwise; `~` requires an `Int` and fails `WrongType` otherwise;
`==` compares any two operands without failing and pushes `Int 1`/`Int 0`;
`/` with a zero divisor fails `DivideByZero`, and running the parse of
`"/ 4 0"` fails `DivideByZero`. -/
theorem C6_arith_errors :
    (∀ s' : String, intoInt (.Str s') = .error (.CantCoerce (.Str s') .Int)) ∧
    (∀ h : Nat, h ≤ 2 ^ 31 - 1 → intoInt (.Hex h) = .ok (Int.ofNat h)) ∧
    (∀ (d : Dict) (w : Word) (rest code : List Word) (envs : List Env) (e : EvalErr),
      intoInt w = .error e →
      doBuiltin .OpAdd ⟨d, w :: rest, code, envs⟩ = some (.error e) ∧
      doBuiltin .OpSub ⟨d, w :: rest, code, envs⟩ = some (.error e) ∧
      doBuiltin .OpMul ⟨d, w :: rest, code, envs⟩ = some (.error e) ∧
      doBuiltin .OpDiv ⟨d, w :: rest, code, envs⟩ = some (.error e) ∧
      doBuiltin .OpLt ⟨d, w :: rest, code, envs⟩ = some (.error e) ∧
      doBuiltin .OpGt ⟨d, w :: rest, code, envs⟩ = some (.error e)) ∧
    (∀ (d : Dict) (w : Word) (rest code : List Word) (envs : List Env),
      (∀ n : Int, w ≠ .Int n) →
      doBuiltin .OpNeg ⟨d, w :: rest, code, envs⟩ =
        some (.error (.WrongType w .Int))) ∧
    (∀ (d : Dict) (a b : Word) (rest code : List Word) (envs : List Env),
      doBuiltin .OpEql ⟨d, a :: b :: rest, code, envs⟩ =
        some (.ok ⟨d, fromBool (wordEq a b) :: rest, code, envs⟩)) ∧
    (∀ (d : Dict) (x : Int) (rest code : List Word) (envs : List Env),
      doBuiltin .OpDiv ⟨d, .Int x :: .Int 0 :: rest, code, envs⟩ =
        some (.error .DivideByZero)) ∧
    (parse "/ 4 0" = .ok [.Atom "/", .Int 4, .Int 0] ∧
     runFuel 10 (shellWith [.Atom "/", .Int 4, .Int 0]) =
       some (.error .DivideByZero)) := by
  refine ⟨fun s' => rfl, ?_, ?_, ?_, fun d a b rest code envs => rfl,
    fun d x rest code envs => rfl, rfl, rfl⟩
  · intro h hh
    simp only [intoInt]
    rw [if_pos hh]
  · intro d w rest code envs e h
    exact ⟨congrArg some (intBinop_coerce_err _ d w rest code envs e h),
      congrArg some (intBinop_coerce_err _ d w rest code envs e h),
      congrArg some (intBinop_coerce_err _ d w rest code envs e h),
      congrArg some (intBinop_coerce_err _ d w rest code envs e h),
      congrArg some (intBinop_coerce_err _ d w rest code envs e h),
      congrArg some (intBinop_coerce_err _ d w rest code envs e h)⟩
  · intro d w rest code envs h
    cases w with
    | Int i => exact absurd rfl (h i)
    | Atom a => rfl
    | Hex x => rfl
    | Str s => rfl
    | List l => rfl
    | Dict dd => rfl

theorem C6_arith_errors_witness :
    intoInt (.Hex 5) = .ok (Int.ofNat 5) ∧
    doBuiltin .OpMul ⟨defaultBindings, [.List [], .Int 2], [], []⟩ =
      some (.error (.CantCoerce (.List []) .Int)) ∧
    doBuiltin .OpNeg ⟨defaultBindings, [.Hex 5], [], []⟩ =
      some (.error (.WrongType (.Hex 5) .Int)) :=
  ⟨C6_arith_errors.2.1 5 (by decide),
   (C6_arith_errors.2.2.1 defaultBindings (.List []) [.Int 2] [] []
     (.CantCoerce (.List []) .Int) rfl).2.2.1,
   C6_arith_errors.2.2.2.1 defaultBindings (.Hex 5) [] [] []
     (fun n => fun hh => nomatch hh)⟩

/-- C3 counterexample: the body `\x7b eval drop \x7d` infers the inexact
signature `⟨2, 0, false⟩`, yet invoking `f` bound to it on an empty
stack fails `StackUnderflow` at call time — the depth check is not
skipped for `exact = false` bindings. -/
theorem C3_counterexample :
    inferType defaultBindings [.Atom "eval", .Atom "drop"] = .ok ⟨2, 0, false⟩ ∧
    parse "f = \x7b eval drop \x7d\nf" =
      .ok [.Atom "f", .Atom "f", .Atom "=", .List [.Atom "eval", .Atom "drop"]] ∧
    runFuel 10 (shellWith [.Atom "f", .Atom "f", .Atom "=",
      .List [.Atom "eval", .Atom "drop"]]) = some (.error .StackUnderflow) :=
  ⟨rfl, rfl, rfl⟩

/-- C3 amended: invoking an interpreted binding checks the stack depth
against the declared input count regardless of the `exact` flag — it
fails `StackUnderflow` exactly when the data stack is shorter than
`spec.input`, for inexact bindings just as for exact ones. -/
theorem C3_depth_check (s : Shell) (name : String) (spec : TypeSpec) (w : Word)
    (h : omGet name s.dict = some (.Interpreted spec w)) :
    execAtom name s =
      some (if s.data.length < spec.input then .error .StackUnderflow
            else .ok (spliceW w s)) := by
  unfold execAtom
  simp only [h]
  cases w <;> rfl

theorem C3_depth_check_witness :
    execAtom "f" ⟨[("f", .Interpreted ⟨2, 0, false⟩ (.List []))], [], [], []⟩ =
      some (.error .StackUnderflow) :=
  C3_depth_check ⟨[("f", .Interpreted ⟨2, 0, false⟩ (.List []))], [], [], []⟩
    "f" ⟨2, 0, false⟩ (.List []) rfl

/-- C4 counterexample: with the stack `[names, body, value]` the code
substitutes the popped *value* for the name inside the word popped
*second* (the body comes before the values), while the claim's order
(names, then values, then body) would substitute the other way around. -/
theorem C4_counterexample :
    doBuiltin .Expand ⟨defaultBindings, [.List [.Atom "x"], .Str "B", .Int 5], [], []⟩ =
      some (.ok ⟨defaultBindings, [.Str "B"], [], []⟩) ∧
    expandClaimOrder ⟨defaultBindings, [.List [.Atom "x"], .Str "B", .Int 5], [], []⟩ =
      some (.ok ⟨defaultBindings, [.Int 5], [], []⟩) ∧
    (Word.Str "B" ≠ Word.Int 5) ∧
    doBuiltin .Expand ⟨defaultBindings, [.List [.Atom "x"], .Str "B", .Int 5], [], []⟩ ≠
      expandClaimOrder ⟨defaultBindings, [.List [.Atom "x"], .Str "B", .Int 5], [], []⟩ := by
  refine ⟨rfl, rfl, ?_, ?_⟩
  · intro h
    exact Word.noConfusion h
  · intro h
    have hred : (some (Except.ok
        (⟨defaultBindings, [Word.Str "B"], [], []⟩ : Shell)) : Option (Except EvalErr Shell)) =
        some (.ok ⟨defaultBindings, [.Int 5], [], []⟩) := h
    simp at hred

theorem expandLoop_atoms : ∀ (names : List String) (values : List Word)
    (rest : List Word) (acc : List (String × Word)) (d : Dict) (code : List Word)
    (envs : List Env), values.length = names.length →
    expandLoop (names.map .Atom) ⟨d, values ++ rest, code, envs⟩ acc =
      .ok ((names.zip values).foldl (fun m kv => omInsert kv.1 kv.2 m) acc,
        ⟨d, rest, code, envs⟩) := by
  intro names
  induction names with
  | nil =>
    intro values rest acc d code envs hlen
    obtain rfl : values = [] := List.length_eq_zero.mp (by simpa using hlen)
    rfl
  | cons n ns ih =>
    intro values rest acc d code envs hlen
    rcases values with _ | ⟨v, vs⟩
    · simp at hlen
    · have step : expandLoop ((n :: ns).map .Atom)
          ⟨d, (v :: vs) ++ rest, code, envs⟩ acc =
          expandLoop (ns.map .Atom) ⟨d, vs ++ rest, code, envs⟩ (omInsert n v acc) := rfl
      rw [step, ih vs rest (omInsert n v acc) d code envs (by simpa using hlen)]
      rfl

theorem omInsert_fresh {α : Type} : ∀ (l : List (String × α)) (k : String) (v : α),
    (∀ p ∈ l, p.1 ≠ k) → omInsert k v l = l ++ [(k, v)] := by
  intro l k v
  induction l with
  | nil => intro _; rfl
  | cons p ps ih =>
    intro h
    obtain ⟨k', v'⟩ := p
    simp only [omInsert]
    rw [if_neg (h (k', v') (by simp)), ih (fun q hq => h q (by simp [hq]))]
    rfl

theorem foldl_omInsert_fresh : ∀ (ps : List (String × Word)) (acc : List (String × Word)),
    (∀ p ∈ ps, ∀ q ∈ acc, q.1 ≠ p.1) → (ps.map Prod.fst).Nodup →
    ps.foldl (fun m kv => omInsert kv.1 kv.2 m) acc = acc ++ ps := by
  intro ps
  induction ps with
  | nil => intro acc _ _; simp
  | cons p ps' ih =>
    intro acc hfresh hnd
    simp only [List.foldl_cons]
    rw [omInsert_fresh acc p.1 p.2 (fun q hq => hfresh p (by simp) q hq)]
    simp only [List.map_cons, List.nodup_cons] at hnd
    rw [ih (acc ++ [p]) ?_ hnd.2]
    · simp
    · intro x hx q hq
      rcases List.mem_append.mp hq with hq' | hq'
      · exact hfresh x (by simp [hx]) q hq'
      · simp at hq'
        subst hq'
        intro hcontra
        exact hnd.1 (hcontra ▸ List.mem_map_of_mem Prod.fst hx)

/-- C4 amended: `expand` pops the name list first, then the *body*, and
then one value per name; it pushes the body with every listed atom
replaced by its value, recursively inside lists, leaving everything else
intact. -/
theorem C4_expand_order (d : Dict) (names : List String) (values : List Word)
    (body : Word) (rest code : List Word) (envs : List Env)
    (hnd : names.Nodup) (hlen : values.length = names.length) :
    doBuiltin .Expand
      ⟨d, .List (names.map .Atom) :: body :: (values ++ rest), code, envs⟩ =
      some (.ok ⟨d, wordExpand body (names.zip values) :: rest, code, envs⟩) := by
  have key : doBuiltin .Expand
      ⟨d, .List (names.map .Atom) :: body :: (values ++ rest), code, envs⟩ =
      some ((expandLoop (names.map .Atom) ⟨d, values ++ rest, code, envs⟩ []).bind
        (fun pr => .ok (Shell.push (wordExpand body pr.1) pr.2))) := rfl
  rw [key, expandLoop_atoms names values rest [] d code envs hlen]
  have hfold : (names.zip values).foldl (fun m kv => omInsert kv.1 kv.2 m) [] =
      names.zip values := by
    rw [foldl_omInsert_fresh _ [] (by simp) ?_]
    · simp
    · rw [List.map_fst_zip names values (by omega)]
      exact hnd
  rw [hfold]
  rfl

theorem C4_expand_order_witness :
    doBuiltin .Expand ⟨defaultBindings,
      [.List [.Atom "x"], .List [.Atom "x", .Atom "y"], .Int 5], [], []⟩ =
      some (.ok ⟨defaultBindings,
        [.List [.Int 5, .Atom "y"]], [], []⟩) := by
  have h := C4_expand_order defaultBindings ["x"] [.Int 5]
    (.List [.Atom "x", .Atom "y"]) [] [] [] (by simp) rfl
  exact h.trans rfl

/-- C5 counterexample: the claim's fold stops only at *unknown* atoms, but
the code stops as soon as `exact` goes false for any reason — including
after merging the known-but-inexact signature of a primitive such as
`eval`.  On the stored body `[drop, eval]` (execution order `eval drop`)
the code stops after `eval` with `{input 1, output 0}`, while the claim's
fold continues through `drop` and reaches `{input 2, output 0}`. -/
theorem C5_counterexample :
    inferType defaultBindings [.Atom "drop", .Atom "eval"] =
      .ok ⟨1, 0, false⟩ ∧
    claimFold defaultBindings [.Atom "drop", .Atom "eval"] = ⟨2, 0, false⟩ ∧
    inferType defaultBindings [.Atom "drop", .Atom "eval"] ≠
      .ok (claimFold defaultBindings [.Atom "drop", .Atom "eval"]) := by
  refine ⟨rfl, rfl, ?_⟩
  intro h
  have hred : (Except.ok (⟨1, 0, false⟩ : TypeSpec) : Except EvalErr TypeSpec) =
      .ok ⟨2, 0, false⟩ := h
  simp [TypeSpec.mk.injEq] at hred

theorem merge_eq_claimCompose (self next : TypeSpec) :
    TypeSpec.merge self next = claimCompose self next := by
  unfold TypeSpec.merge claimCompose
  by_cases h : self.output < next.input
  · rw [if_pos h, if_pos h]
  · rw [if_neg h, if_neg h]

theorem inferGo_eq_amendFoldGo (dict : Dict) :
    ∀ (ws : List Word) (spec : TypeSpec),
    inferGo dict ws spec = amendFoldGo dict ws spec := by
  intro ws
  induction ws with
  | nil => intro spec; rfl
  | cons w ws ih =>
    intro spec
    cases w
    case Atom name =>
      cases h2 : omGet name dict with
      | none =>
        simp only [inferGo, amendFoldGo, getTypeWord, h2, Option.map_none']
        split
        · exact ih _
        · rfl
      | some b =>
        simp only [inferGo, amendFoldGo, getTypeWord, h2, Option.map_some']
        cases b <;>
          (simp only [bindingSpec, merge_eq_claimCompose]
           split
           · exact ih _
           · rfl)
    all_goals
      simp only [inferGo, amendFoldGo, getTypeWord, merge_eq_claimCompose]
      split
      · exact ih _
      · rfl

/-- C5 amended: `infer_type` over a stored definition body equals the
reference fold that scans the body in reverse of stored order, contributes
`{input 0, output 1}` for every non-atom, the stored or primitive
signature for every known atom, marks the result inexact at an unknown
atom, and — the amendment — stops as soon as the running signature's
`exact` flag is false, whether that came from an unknown atom or from
composing a known-but-inexact signature.  The composition rule is exactly
the claim's: when `self.output < next.input` the deficit is added to
`self.input` and `self.output` zeroed, otherwise `next.input` is
subtracted from `self.output`; then `next.output` is added. -/
theorem C5_infer_fold (dict : Dict) (body : List Word) :
    inferType dict body = .ok (amendFold dict body) := by
  unfold inferType amendFold
  rw [inferGo_eq_amendFoldGo]

/-- C1: error recovery.  (1) `try` snapshots the dictionary, data stack
and remaining code, appending the catch handler to the snapshot code, and
pushes the snapshot onto the recovery stack before running the body
(guarded by a trailing `popeh`).  (2) Whenever executing an Atom word
fails with an evaluation error and the recovery stack is non-empty, the
machine's dictionary, data and code are all replaced by the most recent
snapshot, the string `"<name> error: <message>"` is pushed onto the
restored data stack, and execution continues (`.next`).  (3) Concretely,
a failing try body leaves the data stack equal to its pre-`try` contents
plus exactly the one diagnostic string, with the dictionary unchanged. -/
theorem C1_try_recovery :
    (∀ (d : Dict) (body catchL data code : List Word) (envs : List Env),
      doBuiltin .Try ⟨d, .List body :: .List catchL :: data, code, envs⟩ =
        some (.ok ⟨d, data, body.reverse ++ .Atom "popeh" :: code,
          (⟨d, data, catchL.reverse ++ code⟩ : Env) :: envs⟩)) ∧
    (∀ (d : Dict) (data rest : List Word) (name : String) (env : Env)
       (envs : List Env) (err : EvalErr),
      execAtom name ⟨d, data, rest, env :: envs⟩ = some (.error err) →
      step ⟨d, data, .Atom name :: rest, env :: envs⟩ =
        .next ⟨env.dict,
          .Str (String.mk (name.data ++ " error: ".data ++ evalErrStr err)) :: env.data,
          env.code, envs⟩) ∧
    runFuel 20 (shellWith
        [.Atom "try", .List [.Atom "+", .Int 1, .Str "x"], .List [], .Int 9]) =
      some (.ok ⟨defaultBindings,
        [.Str "+ error: cannot convert \"x\" to integer", .Int 9], [], []⟩) := by
  refine ⟨fun d body catchL data code envs => rfl, ?_, rfl⟩
  intro d data rest name env envs err herr
  unfold step
  simp only [herr]

theorem C1_try_recovery_witness :
    step ⟨defaultBindings, [], [.Atom "drop"], [⟨defaultBindings, [.Int 7], []⟩]⟩ =
      .next ⟨defaultBindings, [.Str "drop error: stack underflow", .Int 7], [], []⟩ := by
  have h := C1_try_recovery.2.1 defaultBindings [] [] "drop"
    ⟨defaultBindings, [.Int 7], []⟩ [] .StackUnderflow rfl
  exact h.trans rfl

theorem dictLe_iff : ∀ (a b : List (String × Word)),
    dictLe a b = true ↔
      ∀ kv ∈ a, ∃ w, omGet kv.1 b = some w ∧ wordEq kv.2 w = true := by
  intro a b
  induction a with
  | nil => simp [dictLe]
  | cons kv rest ih =>
    obtain ⟨k, v⟩ := kv
    simp only [dictLe, Bool.and_eq_true, List.mem_cons, ih]
    constructor
    · rintro ⟨h1, h2⟩ kv hkv
      rcases hkv with rfl | hkv
      · cases hg : omGet k b with
        | none => rw [hg] at h1; exact absurd h1 (by simp)
        | some w => rw [hg] at h1; exact ⟨w, rfl, h1⟩
      · exact h2 kv hkv
    · intro h
      refine ⟨?_, fun kv hkv => h kv (Or.inr hkv)⟩
      obtain ⟨w, hw, he⟩ := h (k, v) (Or.inl rfl)
      rw [hw]
      exact he

mutual

theorem wordEq_iff_eq : ∀ (a b : Word), dictFree a = true →
    (wordEq a b = true ↔ a = b)
| .Atom s, b, _ => by cases b <;> simp [wordEq]
| .Int i, b, _ => by cases b <;> simp [wordEq]
| .Hex n, b, _ => by cases b <;> simp [wordEq]
| .Str s, b, _ => by cases b <;> simp [wordEq]
| .Dict ds, b, h => by simp [dictFree] at h
| .List ws, b, h => by
    cases b with
    | List bs =>
      simp only [wordEq, Word.List.injEq]
      exact listEq_iff_eq ws bs h
    | Atom s => simp [wordEq]
    | Int i => simp [wordEq]
    | Hex n => simp [wordEq]
    | Str s => simp [wordEq]
    | Dict ds => simp [wordEq]

theorem listEq_iff_eq : ∀ (ws bs : List Word), dictFreeList ws = true →
    (listEq ws bs = true ↔ ws = bs)
| [], bs, _ => by cases bs <;> simp [listEq]
| w :: ws, bs, h => by
    cases bs with
    | nil => simp [listEq]
    | cons b bs =>
      simp only [dictFreeList, Bool.and_eq_true] at h
      obtain ⟨h1, h2⟩ := h
      simp only [listEq, Bool.and_eq_true, List.cons.injEq]
      rw [wordEq_iff_eq w b h1, listEq_iff_eq ws bs h2]

end

/-- C8: `Dict` equality is one-directional containment — `A == B` holds
iff every key of A is present in B with a `==`-equal value; in
particular it is asymmetric (`{} == {k: 1}` holds, `{k: 1} == {}` does
not), while on every Dict-free word `==` coincides with structural
equality. -/
theorem C8_dict_eq :
    (∀ (a b : List (String × Word)),
      wordEq (.Dict a) (.Dict b) = true ↔
        ∀ kv ∈ a, ∃ w, omGet kv.1 b = some w ∧ wordEq kv.2 w = true) ∧
    (wordEq (.Dict []) (.Dict [("k", .Int 1)]) = true ∧
     wordEq (.Dict [("k", .Int 1)]) (.Dict []) = false) ∧
    (∀ (a b : Word), dictFree a = true → (wordEq a b = true ↔ a = b)) := by
  refine ⟨fun a b => ?_, ⟨rfl, rfl⟩, wordEq_iff_eq⟩
  rw [show wordEq (.Dict a) (.Dict b) = dictLe a b from rfl]
  exact dictLe_iff a b

theorem C8_dict_eq_witness :
    dictFree (.List [.Int 1, .Str "s"]) = true ∧
    (wordEq (.List [.Int 1, .Str "s"]) (.List [.Int 1, .Str "s"]) = true ↔
      (Word.List [.Int 1, .Str "s"] = .List [.Int 1, .Str "s"])) :=
  ⟨rfl, C8_dict_eq.2.2 (.List [.Int 1, .Str "s"]) (.List [.Int 1, .Str "s"]) rfl⟩
